import Mathlib

/-!
Shallow embedding of the autopoietic reaction and bonding engine from
`autopoiesis-simulacao.py`: the particle registry, the catalyst-substrate
reaction rule, the sensor-driven bond formation rule, the disintegration
rule, the deferred mutation queue with its per-tick flush, and (in the
real-valued geometry section further down) the boundary containment and
the stochastic force field.

Python object identity is modelled by a numeric id `pid`; each particle
owns exactly one collision shape and one rigid body, so the shape and the
body of a particle are identified with its `pid` as well.  The physics
space is modelled as the list of body ids currently added to it.
Randomness (probability rolls, `random.choice`) is passed in explicitly.
-/

set_option autoImplicit false

namespace Autopoiesis

/-- Particle taxonomy, `ParticleType` in the source. -/
inductive PType
  | SUBSTRATE
  | CATALYST
  | LINK
deriving DecidableEq, Repr

/-- Registry record for one particle: its identity, kind, position,
bonded peers (by id, in append order), bonded-degree bound and age. -/
structure Particle where
  pid : Nat
  ptype : PType
  pos : ℚ × ℚ
  connections : List Nat
  max_connections : Nat
  age : Nat
deriving DecidableEq, Repr

/-- Constructor behaviour of `Particle.__init__` (registry-relevant part):
empty connections, `max_connections` 2 for LINK and 0 otherwise, age 0. -/
def mkParticle (pid : Nat) (t : PType) (pos : ℚ × ℚ) : Particle :=
  { pid := pid, ptype := t, pos := pos, connections := [],
    max_connections := if t = PType.LINK then 2 else 0, age := 0 }

/-- Radius assigned by `Particle.__init__`: 12 for CATALYST, 8 otherwise. -/
def pradius (t : PType) : ℚ := if t = PType.CATALYST then 12 else 8

/-- Engine state: the particle registry `particles`, the bond list `bonds`
(endpoint ids of each spring in creation order), the deferred mutation
queue `to_remove` (shape id paired with an optional bond), the ids of the
bodies currently added to the physics space, and the id supply. -/
structure SimState where
  particles : List Particle
  bonds : List (Nat × Nat)
  to_remove : List (Nat × Option (Nat × Nat))
  space : List Nat
  nextId : Nat
deriving DecidableEq, Repr

/-- Behaviour of the `Particle(...)` constructor call itself: the new body
is added to the physics space.  The caller decides whether the particle is
also appended to the registry list `particles`. -/
def spawn (s : SimState) (t : PType) (pos : ℚ × ℚ) : SimState × Particle :=
  let p := mkParticle s.nextId t pos
  ({ s with space := s.space ++ [p.pid], nextId := s.nextId + 1 }, p)

/-- Source `create_link`: construct a LINK particle and append it to the
registry. -/
def create_link (s : SimState) (pos : ℚ × ℚ) : SimState :=
  let sp := spawn s PType.LINK pos
  { sp.1 with particles := sp.1.particles ++ [sp.2] }

/-- Append `j` to the connections list of the particle with id `i`
(one `connections.append` call in the source). -/
def addConn (ps : List Particle) (i j : Nat) : List Particle :=
  ps.map fun p => if p.pid = i then { p with connections := p.connections ++ [j] } else p

/-- Source `create_bond`: add the spring to the space and the bonds list,
then `p1.connections.append(p2)` followed by `p2.connections.append(p1)`. -/
def create_bond (s : SimState) (i j : Nat) : SimState :=
  { s with bonds := s.bonds ++ [(i, j)],
           particles := addConn (addConn s.particles i j) j i }

/-- Lookup `[p for p in self.particles if hasattr(p, 'sensor') and p.sensor == link_sensor][0]`:
only LINK particles carry a sensor, and a particle's sensor is identified
with its `pid`. -/
def sensorOwner (ps : List Particle) (sensorId : Nat) : Option Particle :=
  ps.find? fun p => p.ptype == PType.LINK && p.pid == sensorId

/-- Lookup `[p for p in self.particles if p.shape == shape][0]` (first
registry particle owning the given shape). -/
def shapeOwner (ps : List Particle) (shapeId : Nat) : Option Particle :=
  ps.find? fun p => p.pid == shapeId

/-- Guard of `handle_link_detection`, verbatim from the source:
`p1 != p2 and len(p1.connections) < p1.max_connections and
len(p2.connections) < p2.max_connections and p2 not in p1.connections`. -/
abbrev BondGuard (p1 p2 : Particle) : Prop :=
  p1.pid ≠ p2.pid ∧ p1.connections.length < p1.max_connections ∧
  p2.connections.length < p2.max_connections ∧ p2.pid ∉ p1.connections

/-- Source `handle_link_detection` for a begin-overlap event between the
sensor `sensorId` and the LINK shape `shapeId`. -/
def handle_link_detection (s : SimState) (sensorId shapeId : Nat) : SimState :=
  match sensorOwner s.particles sensorId, shapeOwner s.particles shapeId with
  | some p1, some p2 =>
      if BondGuard p1 p2 then create_bond s p1.pid p2.pid else s
  | _, _ => s

/-- Squared euclidean distance of two positions.  The source compares
`math.sqrt((dx)**2 + (dy)**2) < 40`; the squared form is the decidable
equivalent (see `distance_lt_forty_iff` below). -/
def dist2 (a b : ℚ × ℚ) : ℚ := (a.1 - b.1) ^ 2 + (a.2 - b.2) ^ 2

/-- Nearby-substrate query of `handle_catalyst_substrate`: every SUBSTRATE
particle other than the event substrate whose distance to it is below 40. -/
def nearby_substrates (ps : List Particle) (subId : Nat) (subPos : ℚ × ℚ) : List Particle :=
  ps.filter fun p =>
    p.ptype == PType.SUBSTRATE && p.pid != subId && decide (dist2 subPos p.pos < 40 ^ 2)

/-- Source `handle_catalyst_substrate` for a separate event whose substrate
shape is `subId`.  The outermost kind test models pymunk's collision-type
dispatch: the handler is registered for (CATALYST, SUBSTRATE) pairs, so it
only ever fires with a SUBSTRATE shape in slot 1.  `roll` is the outcome of
`random.random() < 0.15` and `choice` drives `random.choice`. -/
def handle_catalyst_substrate (s : SimState) (roll : Bool) (subId : Nat) (choice : Nat) :
    SimState :=
  match shapeOwner s.particles subId with
  | none => s
  | some sub =>
    if sub.ptype = PType.SUBSTRATE then
      if roll then
        let nearby := nearby_substrates s.particles subId sub.pos
        match nearby[choice % nearby.length]? with
        | none => s
        | some second =>
          let pos := ((sub.pos.1 + second.pos.1) / 2, (sub.pos.2 + second.pos.2) / 2)
          let s1 := create_link s pos
          { s1 with to_remove := s1.to_remove ++ [(subId, none), (second.pid, none)] }
      else s
    else s

/-- Source `remove_particle`: find the registry particle owning the shape;
if found, detach it from the physics space and erase it from the registry;
if not found, warn and skip (state unchanged). -/
def remove_particle (s : SimState) (shapeId : Nat) : SimState :=
  match s.particles.find? (fun p => p.pid == shapeId) with
  | some _ =>
      { s with space := s.space.erase shapeId,
               particles := s.particles.eraseP (fun p => p.pid == shapeId) }
  | none => s

/-- One iteration of the flush loop in `run`: remove the particle of the
mutation's shape, then remove the mutation's bond when one is present. -/
def flush_one (st : SimState) (m : Nat × Option (Nat × Nat)) : SimState :=
  let st1 := remove_particle st m.1
  match m.2 with
  | some b => { st1 with bonds := st1.bonds.erase b }
  | none => st1

/-- Deferred-mutation flush in `run`: process every queued mutation in
order, then clear the queue. -/
def flush_mutations (s : SimState) : SimState :=
  { s.to_remove.foldl flush_one s with to_remove := [] }

/-- Abstract motion: physics integration in `space.step`, Brownian impulses
and the boundary clamp change only positions and velocities.  In the
registry model this is an arbitrary position update; the real-valued
geometry of the two force/containment components is modelled separately
below. -/
def set_positions (f : Nat → ℚ × ℚ) (s : SimState) : SimState :=
  { s with particles := s.particles.map fun p => { p with pos := f p.pid } }

/-- One call `connected.connections.remove(particle)`: erase `pid` from the
connections list of the particle with id `cid`. -/
def eraseFromConnections (ps : List Particle) (cid pid : Nat) : List Particle :=
  ps.map fun q => if q.pid = cid then { q with connections := q.connections.erase pid } else q

/-- Body of the `handle_disintegration` loop for one snapshot particle:
age every LINK, and with the 1% roll once age exceeds 1000 remove the link
from its neighbours' connection lists, construct two SUBSTRATE particles at
x-offset plus/minus 10 (the constructor adds them to the physics space; the
source never appends them to the registry), and enqueue the link's shape
with no bond. -/
def disintegrate_step (rolls : Nat → Bool) (st : SimState) (pid : Nat) : SimState :=
  match st.particles.find? (fun p => p.pid == pid) with
  | none => st
  | some p =>
    if p.ptype = PType.LINK then
      let p' := { p with age := p.age + 1 }
      let st1 := { st with particles := st.particles.map fun q => if q.pid = pid then p' else q }
      if p'.age > 2 * 500 ∧ rolls pid = true then
        let st2 := { st1 with
          particles := p'.connections.foldl (fun l cid => eraseFromConnections l cid pid) st1.particles }
        let st3 := (spawn st2 PType.SUBSTRATE (p.pos.1 + 10, p.pos.2)).1
        let st4 := (spawn st3 PType.SUBSTRATE (p.pos.1 - 10, p.pos.2)).1
        { st4 with to_remove := st4.to_remove ++ [(pid, none)] }
      else st1
    else st

/-- Source `handle_disintegration`: iterate over a snapshot
`list(self.particles)` of the registry, applying `disintegrate_step`. -/
def handle_disintegration (rolls : Nat → Bool) (s : SimState) : SimState :=
  (s.particles.map Particle.pid).foldl (disintegrate_step rolls) s

/-- Callback events raised while `space.step` runs, plus abstract motion. -/
inductive Ev
  | catSub (roll : Bool) (subId choice : Nat)
  | linkDet (sensorId shapeId : Nat)
  | motion (f : Nat → ℚ × ℚ)

/-- Apply one in-step event. -/
def applyEv (e : Ev) (s : SimState) : SimState :=
  match e with
  | .catSub roll subId choice => handle_catalyst_substrate s roll subId choice
  | .linkDet a b => handle_link_detection s a b
  | .motion f => set_positions f s

/-- Engine operations, the units of the per-tick control flow. -/
inductive Op
  | ev (e : Ev)
  | disint (rolls : Nat → Bool)
  | flush

/-- Apply one engine operation. -/
def applyOp (o : Op) (s : SimState) : SimState :=
  match o with
  | .ev e => applyEv e s
  | .disint r => handle_disintegration r s
  | .flush => flush_mutations s

/-- Apply a sequence of engine operations in order. -/
def applyOps (l : List Op) (s : SimState) : SimState :=
  l.foldl (fun st o => applyOp o st) s

/-- Per-tick inputs: the in-step events in engine order, the disintegration
rolls, and the position update of the boundary-containment pass. -/
structure TickData where
  evs : List Ev
  rolls : Nat → Bool
  boundary : Nat → ℚ × ℚ

/-- One iteration of the main loop in `run`: `space.step` (raising the
callback events), Brownian forces (position-only, folded into the motion
events), `handle_disintegration`, `handle_boundary_collision` (position
update), then the deferred-mutation flush. -/
def runTick (td : TickData) (s : SimState) : SimState :=
  flush_mutations (set_positions td.boundary
    (handle_disintegration td.rolls (td.evs.foldl (fun st e => applyEv e st) s)))

/-- Run a sequence of ticks. -/
def runTicks (l : List TickData) (s : SimState) : SimState :=
  l.foldl (fun st td => runTick td st) s

/-- Statistics record of `update_stats`. -/
structure Stats where
  substrate : Nat
  links : Nat
  bonds : Nat
deriving DecidableEq, Repr

/-- Source `update_stats`: live substrate count, live link count, bond count. -/
def update_stats (s : SimState) : Stats :=
  { substrate := (s.particles.filter fun p => p.ptype == PType.SUBSTRATE).length,
    links := (s.particles.filter fun p => p.ptype == PType.LINK).length,
    bonds := s.bonds.length }

/-- Source `setup_simulation`: one CATALYST at the membrane centre
(400, 400), then 300 SUBSTRATE particles at sampled positions (`poss`
supplies the random polar draws). -/
def setup_simulation (poss : Nat → ℚ × ℚ) : SimState :=
  let s0 : SimState := { particles := [], bonds := [], to_remove := [], space := [], nextId := 0 }
  let sc := spawn s0 PType.CATALYST (400, 400)
  let s1 := { sc.1 with particles := sc.1.particles ++ [sc.2] }
  (List.range 300).foldl (fun st _ =>
    let sp := spawn st PType.SUBSTRATE (poss st.nextId)
    { sp.1 with particles := sp.1.particles ++ [sp.2] }) s1

/-- Ids of the queued removals. -/
def removalIds (s : SimState) : List Nat := s.to_remove.map Prod.fst

/-- Registry particle ids. -/
def pidsOf (s : SimState) : List Nat := s.particles.map Particle.pid

/-- Every registry id is below the id supply. -/
def Fresh (s : SimState) : Prop := ∀ p ∈ s.particles, p.pid < s.nextId

/-- Registry ids are pairwise distinct (object identity). -/
def NodupPids (s : SimState) : Prop := (s.particles.map Particle.pid).Nodup

/-- Every particle respects its own degree bound. -/
def DegOk (s : SimState) : Prop := ∀ p ∈ s.particles, p.connections.length ≤ p.max_connections

/-- The stored degree bound agrees with the constructor's rule. -/
def MaxOk (s : SimState) : Prop :=
  ∀ p ∈ s.particles, p.max_connections = if p.ptype = PType.LINK then 2 else 0

/-! Helper lemmas about lookups and erasure. -/

theorem find?_map_of_pred_invariant (f : Particle → Particle) (p : Particle → Bool)
    (hp : ∀ a, p (f a) = p a) (l : List Particle) :
    (l.map f).find? p = (l.find? p).map f := by
  induction l with
  | nil => rfl
  | cons a t ih =>
    by_cases h : p a = true
    · simp [List.find?_cons_of_pos, h, hp, List.find?_cons_of_pos _ h]
    · rw [List.map_cons, List.find?_cons_of_neg _ (by rw [hp]; simpa using h),
        List.find?_cons_of_neg _ (by simpa using h), ih]

theorem sensorOwner_addConn (ps : List Particle) (i j a : Nat) :
    sensorOwner (addConn ps i j) a =
      (sensorOwner ps a).map
        (fun p => if p.pid = i then { p with connections := p.connections ++ [j] } else p) := by
  unfold sensorOwner addConn
  exact find?_map_of_pred_invariant _ _ (fun q => by by_cases h : q.pid = i <;> simp [h]) ps

theorem shapeOwner_addConn (ps : List Particle) (i j a : Nat) :
    shapeOwner (addConn ps i j) a =
      (shapeOwner ps a).map
        (fun p => if p.pid = i then { p with connections := p.connections ++ [j] } else p) := by
  unfold shapeOwner addConn
  exact find?_map_of_pred_invariant _ _ (fun q => by by_cases h : q.pid = i <;> simp [h]) ps

theorem find?_eraseP_eq_none (f : Particle → Nat) (i : Nat) (l : List Particle)
    (hnd : (l.map f).Nodup) (p : Particle) (hfind : l.find? (fun a => f a == i) = some p) :
    (l.eraseP (fun a => f a == i)).find? (fun a => f a == i) = none := by
  induction l with
  | nil => simp at hfind
  | cons a t ih =>
    simp only [List.map_cons, List.nodup_cons] at hnd
    by_cases h : f a = i
    · rw [List.eraseP_cons_of_pos (by simpa using h)]
      rw [List.find?_eq_none]
      intro x hx hpx
      exact hnd.1 (by
        have : f x = i := by simpa using hpx
        rw [h, ← this]
        exact List.mem_map_of_mem f hx)
    · rw [List.eraseP_cons_of_neg (by simpa using h)]
      rw [List.find?_cons_of_neg _ (by simpa using h)]
      rw [List.find?_cons_of_neg _ (by simpa using h)] at hfind
      exact ih hnd.2 hfind

/-! Claim C5: bond formation guard, effect and idempotence. -/

/-- C5: for a sensor/link begin-overlap event resolving to a sensor owner
`p1` and a body owner `p2`, a bond is created if and only if the source's
guard holds (`p1 ≠ p2`, both strictly under their `max_connections`, and
`p2` not already among `p1`'s connections); creating it appends `p2` to
`p1`'s connections and `p1` to `p2`'s connections and appends one spring to
the bonds list; when the guard fails nothing changes; and a duplicate event
for the same pair is a no-op (idempotence). -/
theorem C5_bond_formation_guard_and_idempotence (s : SimState) (a h : Nat) (p1 p2 : Particle)
    (h1 : sensorOwner s.particles a = some p1)
    (h2 : shapeOwner s.particles h = some p2) :
    (BondGuard p1 p2 →
       handle_link_detection s a h = create_bond s p1.pid p2.pid ∧
       sensorOwner (handle_link_detection s a h).particles a =
         some { p1 with connections := p1.connections ++ [p2.pid] } ∧
       shapeOwner (handle_link_detection s a h).particles h =
         some { p2 with connections := p2.connections ++ [p1.pid] } ∧
       (handle_link_detection s a h).bonds = s.bonds ++ [(p1.pid, p2.pid)]) ∧
    (¬ BondGuard p1 p2 → handle_link_detection s a h = s) ∧
    handle_link_detection (handle_link_detection s a h) a h = handle_link_detection s a h := by
  have hdef : handle_link_detection s a h =
      if BondGuard p1 p2 then create_bond s p1.pid p2.pid else s := by
    unfold handle_link_detection
    rw [h1, h2]
  by_cases hg : BondGuard p1 p2
  · obtain ⟨hne, hc1, hc2, hmem⟩ := hg
    have heq : handle_link_detection s a h = create_bond s p1.pid p2.pid := by
      rw [hdef, if_pos ⟨hne, hc1, hc2, hmem⟩]
    have hso : sensorOwner (create_bond s p1.pid p2.pid).particles a =
        some { p1 with connections := p1.connections ++ [p2.pid] } := by
      show sensorOwner (addConn (addConn s.particles p1.pid p2.pid) p2.pid p1.pid) a = _
      rw [sensorOwner_addConn, sensorOwner_addConn, h1]
      simp [hne, Ne.symm hne]
    have hho : shapeOwner (create_bond s p1.pid p2.pid).particles h =
        some { p2 with connections := p2.connections ++ [p1.pid] } := by
      show shapeOwner (addConn (addConn s.particles p1.pid p2.pid) p2.pid p1.pid) h = _
      rw [shapeOwner_addConn, shapeOwner_addConn, h2]
      simp [hne, Ne.symm hne]
    refine ⟨fun _ => ⟨heq, by rw [heq]; exact hso, by rw [heq]; exact hho, by
      rw [heq]; show (s.bonds ++ [(p1.pid, p2.pid)]) = _; rfl⟩, fun hng => absurd ⟨hne, hc1, hc2, hmem⟩ hng, ?_⟩
    have hng : ¬ BondGuard { p1 with connections := p1.connections ++ [p2.pid] }
        { p2 with connections := p2.connections ++ [p1.pid] } := by
      intro hg2
      exact hg2.2.2.2 (by simp)
    rw [heq]
    unfold handle_link_detection
    rw [hso, hho]
    exact if_neg hng
  · have heq : handle_link_detection s a h = s := by rw [hdef, if_neg hg]
    exact ⟨fun hgg => absurd hgg hg, fun _ => heq, by rw [heq, heq]⟩

/-- Concrete two-link state used to instantiate C5. -/
def stateTwoLinks : SimState :=
  { particles := [mkParticle 0 PType.LINK (0, 0), mkParticle 1 PType.LINK (10, 0)],
    bonds := [], to_remove := [], space := [0, 1], nextId := 2 }

/-- Witness for C5 at a concrete two-link state: the event creates the bond
and a duplicate event changes nothing. -/
theorem C5_witness :
    handle_link_detection stateTwoLinks 0 1 = create_bond stateTwoLinks 0 1 ∧
    handle_link_detection (handle_link_detection stateTwoLinks 0 1) 0 1 =
      handle_link_detection stateTwoLinks 0 1 := by
  have h := C5_bond_formation_guard_and_idempotence stateTwoLinks 0 1
    (mkParticle 0 PType.LINK (0, 0)) (mkParticle 1 PType.LINK (10, 0))
    (by simp [stateTwoLinks, sensorOwner, mkParticle, List.find?_cons])
    (by simp [stateTwoLinks, shapeOwner, mkParticle, List.find?_cons])
  exact ⟨((h.1 (by simp [BondGuard, mkParticle])).1 :), h.2.2⟩

/-! Claim C7: flushing the same remove-particle mutation twice. -/

theorem remove_particle_idem (s : SimState) (i : Nat) (hN : NodupPids s) :
    remove_particle (remove_particle s i) i = remove_particle s i := by
  unfold remove_particle
  cases hfind : s.particles.find? (fun p => p.pid == i) with
  | none => simp [hfind]
  | some p =>
    have h2 : (s.particles.eraseP (fun p => p.pid == i)).find? (fun p => p.pid == i) = none :=
      find?_eraseP_eq_none Particle.pid i s.particles hN p hfind
    simp [hfind, h2]

theorem remove_particle_toRemove (s : SimState) (X : List (Nat × Option (Nat × Nat))) (i : Nat) :
    remove_particle { s with to_remove := X } i = { remove_particle s i with to_remove := X } := by
  unfold remove_particle
  cases hfind : s.particles.find? (fun p => p.pid == i) <;> simp [hfind]

/-- C7: flushing a queue containing the same remove-particle mutation twice
leaves the registry in the same state as flushing it once; equivalently the
second `remove_particle` call finds no matching particle and changes
nothing. -/
theorem flush_one_none (st : SimState) (i : Nat) : flush_one st (i, none) = remove_particle st i :=
  rfl

theorem C7_flush_remove_idempotent (s : SimState) (i : Nat) (hN : NodupPids s) :
    flush_mutations { s with to_remove := [(i, none), (i, none)] } =
      flush_mutations { s with to_remove := [(i, none)] } ∧
    remove_particle (remove_particle s i) i = remove_particle s i := by
  have hidem := remove_particle_idem s i hN
  refine ⟨?_, hidem⟩
  simp only [flush_mutations, List.foldl_cons, List.foldl_nil, flush_one_none,
    remove_particle_toRemove, hidem]

/-- Witness for C7 at a concrete state. -/
theorem C7_witness :
    flush_mutations { stateTwoLinks with to_remove := [(0, none), (0, none)] } =
      flush_mutations { stateTwoLinks with to_remove := [(0, none)] } :=
  (C7_flush_remove_idempotent stateTwoLinks 0
    (by simp [NodupPids, stateTwoLinks, mkParticle])).1

/-! Characterisation of the deferred-mutation flush on the registry. -/

theorem eraseP_eq_filter_of_nodup (f : Particle → Nat) (i : Nat) (l : List Particle)
    (hnd : (l.map f).Nodup) :
    l.eraseP (fun a => f a == i) = l.filter (fun a => !(f a == i)) := by
  induction l with
  | nil => rfl
  | cons a t ih =>
    simp only [List.map_cons, List.nodup_cons] at hnd
    by_cases h : f a = i
    · have ht : t.filter (fun x => !(f x == i)) = t := by
        apply List.filter_eq_self.2
        intro x hx
        have hne : f x ≠ i := by
          intro he
          exact hnd.1 (by rw [h, ← he]; exact List.mem_map_of_mem f hx)
        simpa using hne
      simp [List.eraseP_cons, List.filter_cons, h, ht]
    · simp [List.eraseP_cons, List.filter_cons, h, ih hnd.2]

theorem remove_particle_particles (s : SimState) (i : Nat) (hN : NodupPids s) :
    (remove_particle s i).particles = s.particles.filter (fun p => !(p.pid == i)) := by
  unfold remove_particle
  cases hfind : s.particles.find? (fun p => p.pid == i) with
  | some p => simpa using eraseP_eq_filter_of_nodup Particle.pid i s.particles hN
  | none =>
    have hall : ∀ x ∈ s.particles, (!(x.pid == i)) = true := by
      intro x hx
      simpa using List.find?_eq_none.1 hfind x hx
    exact (List.filter_eq_self.2 hall).symm

theorem remove_particle_nodup (s : SimState) (i : Nat) (hN : NodupPids s) :
    NodupPids (remove_particle s i) := by
  unfold NodupPids remove_particle at *
  cases hfind : s.particles.find? (fun p => p.pid == i) with
  | some p =>
    exact ((List.eraseP_sublist _).map Particle.pid).nodup hN
  | none => exact hN

theorem remove_particle_bonds (s : SimState) (i : Nat) :
    (remove_particle s i).bonds = s.bonds := by
  unfold remove_particle
  cases hfind : s.particles.find? (fun p => p.pid == i) <;> simp

theorem remove_particle_to_remove_eq (s : SimState) (i : Nat) :
    (remove_particle s i).to_remove = s.to_remove := by
  unfold remove_particle
  cases hfind : s.particles.find? (fun p => p.pid == i) <;> simp

theorem remove_particle_nextId (s : SimState) (i : Nat) :
    (remove_particle s i).nextId = s.nextId := by
  unfold remove_particle
  cases hfind : s.particles.find? (fun p => p.pid == i) <;> simp

theorem flush_one_particles (st : SimState) (m : Nat × Option (Nat × Nat)) :
    (flush_one st m).particles = (remove_particle st m.1).particles := by
  unfold flush_one
  cases m.2 <;> simp

theorem flush_one_nextId (st : SimState) (m : Nat × Option (Nat × Nat)) :
    (flush_one st m).nextId = (remove_particle st m.1).nextId := by
  unfold flush_one
  cases m.2 <;> simp

theorem flush_one_to_remove (st : SimState) (m : Nat × Option (Nat × Nat)) :
    (flush_one st m).to_remove = st.to_remove := by
  unfold flush_one
  cases m.2 <;> simp [remove_particle_to_remove_eq]

theorem foldl_flush_particles (ms : List (Nat × Option (Nat × Nat))) (st : SimState)
    (hN : NodupPids st) :
    (ms.foldl flush_one st).particles =
      st.particles.filter (fun p => decide (p.pid ∉ ms.map Prod.fst)) := by
  induction ms generalizing st with
  | nil => simp
  | cons m rest ih =>
    have hN1 : NodupPids (flush_one st m) := by
      unfold NodupPids
      rw [flush_one_particles]
      exact remove_particle_nodup st m.1 hN
    rw [List.foldl_cons, ih (flush_one st m) hN1, flush_one_particles,
      remove_particle_particles st m.1 hN, List.filter_filter]
    apply List.filter_congr
    intro x _
    by_cases h1 : x.pid = m.1 <;> by_cases h2 : x.pid ∈ rest.map Prod.fst <;>
      simp [h1, h2]

theorem flush_mutations_particles (s : SimState) (hN : NodupPids s) :
    (flush_mutations s).particles =
      s.particles.filter (fun p => decide (p.pid ∉ removalIds s)) :=
  foldl_flush_particles s.to_remove s hN

theorem flush_mutations_to_remove (s : SimState) : (flush_mutations s).to_remove = [] := rfl

/-! Claim C4: effect of one reaction firing plus the flush. -/

/-- Concrete three-substrate state: substrates 0, 1, 2 in a row, all within
40 units of each other. -/
def stateThreeSubstrates : SimState :=
  { particles := [mkParticle 0 PType.SUBSTRATE (0, 0), mkParticle 1 PType.SUBSTRATE (10, 0),
                  mkParticle 2 PType.SUBSTRATE (20, 0)],
    bonds := [], to_remove := [], space := [0, 1, 2], nextId := 3 }

theorem handle_catalyst_substrate_fire (s : SimState) (b k : Nat) (sub second : Particle)
    (hsub : shapeOwner s.particles b = some sub) (hty : sub.ptype = PType.SUBSTRATE)
    (hch : (nearby_substrates s.particles b sub.pos)[k %
        (nearby_substrates s.particles b sub.pos).length]? = some second) :
    handle_catalyst_substrate s true b k =
      { create_link s ((sub.pos.1 + second.pos.1) / 2, (sub.pos.2 + second.pos.2) / 2) with
        to_remove := s.to_remove ++ [(b, none), (second.pid, none)] } := by
  unfold handle_catalyst_substrate
  rw [hsub]
  simp only [hty, if_true, if_pos]
  rw [hch]
  rfl

/-- C4: for a catalyst-substrate separate event on substrate `b`: if the
roll succeeds and the nearby-substrate query selects a neighbour, then a
LINK particle is created at the midpoint of the two substrate positions,
both substrates are enqueued, and after the flush the registry has lost
exactly 2 SUBSTRATE particles and gained exactly 1 LINK particle, so the
total count decreases by 1; if the roll fails, or no neighbour exists,
the state is unchanged. -/
theorem C4_reaction_conservation (s : SimState) (b k : Nat) (sub : Particle)
    (hR : s.to_remove = []) (hN : NodupPids s) (hF : Fresh s)
    (hsub : shapeOwner s.particles b = some sub) (hty : sub.ptype = PType.SUBSTRATE) :
    handle_catalyst_substrate s false b k = s ∧
    (nearby_substrates s.particles b sub.pos = [] → handle_catalyst_substrate s true b k = s) ∧
    (∀ second,
      (nearby_substrates s.particles b sub.pos)[k %
          (nearby_substrates s.particles b sub.pos).length]? = some second →
      (flush_mutations (handle_catalyst_substrate s true b k)).particles.length + 1 =
        s.particles.length ∧
      (update_stats (flush_mutations (handle_catalyst_substrate s true b k))).substrate + 2 =
        (update_stats s).substrate ∧
      (update_stats (flush_mutations (handle_catalyst_substrate s true b k))).links =
        (update_stats s).links + 1 ∧
      mkParticle s.nextId PType.LINK
          ((sub.pos.1 + second.pos.1) / 2, (sub.pos.2 + second.pos.2) / 2) ∈
        (flush_mutations (handle_catalyst_substrate s true b k)).particles ∧
      (∀ p ∈ (flush_mutations (handle_catalyst_substrate s true b k)).particles,
        p.pid ≠ b ∧ p.pid ≠ second.pid)) := by
  have hsubmem : sub ∈ s.particles := List.mem_of_find?_eq_some hsub
  have hsubpid : sub.pid = b := by simpa using List.find?_some hsub
  refine ⟨by unfold handle_catalyst_substrate; rw [hsub]; simp [hty], ?_, ?_⟩
  · intro hempty
    unfold handle_catalyst_substrate
    rw [hsub]
    simp [hty, hempty]
  · intro second hch
    have hfire := handle_catalyst_substrate_fire s b k sub second hsub hty hch
    have hsecnear : second ∈ nearby_substrates s.particles b sub.pos := List.getElem?_mem hch
    have hsec := List.mem_filter.1 hsecnear
    have hsecmem : second ∈ s.particles := hsec.1
    have hsecty : second.ptype = PType.SUBSTRATE := by
      have := hsec.2
      simp only [Bool.and_eq_true, beq_iff_eq] at this
      exact this.1.1
    have hsecpid : second.pid ≠ b := by
      have := hsec.2
      simp only [Bool.and_eq_true, bne_iff_ne, beq_iff_eq] at this
      exact this.1.2
    set mid : ℚ × ℚ := ((sub.pos.1 + second.pos.1) / 2, (sub.pos.2 + second.pos.2) / 2) with hmid
    set L : Particle := mkParticle s.nextId PType.LINK mid with hL
    set sFire := handle_catalyst_substrate s true b k with hsF
    have hparts : sFire.particles = s.particles ++ [L] := by rw [hfire]; rfl
    have hrem : removalIds sFire = [b, second.pid] := by
      rw [hfire]
      show ((s.to_remove ++ [(b, none), (second.pid, none)]).map Prod.fst) = _
      rw [hR]
      rfl
    -- the fresh link survives the flush, the two substrates do not
    have hLpid : L.pid = s.nextId := rfl
    have hbfresh : b < s.nextId := hsubpid ▸ hF sub hsubmem
    have hcfresh : second.pid < s.nextId := hF second hsecmem
    have hNF : NodupPids sFire := by
      unfold NodupPids
      rw [hparts, List.map_append]
      refine List.Nodup.append hN (by simp) ?_
      intro x hx hx2
      obtain ⟨q, hq, rfl⟩ := List.mem_map.1 hx
      have hlt := hF q hq
      simp only [List.map_cons, List.map_nil, List.mem_singleton, hLpid] at hx2
      omega
    have hflushp : (flush_mutations sFire).particles =
        (s.particles ++ [L]).filter (fun p => decide (p.pid ∉ ([b, second.pid] : List Nat))) := by
      rw [flush_mutations_particles sFire hNF, hparts, hrem]
    -- permutation decomposition of the registry
    have hne_record : second ≠ sub := fun he => hsecpid (he ▸ hsubpid)
    have hperm1 : s.particles.Perm (sub :: s.particles.erase sub) :=
      List.perm_cons_erase hsubmem
    have hsecmem2 : second ∈ s.particles.erase sub :=
      (List.mem_erase_of_ne hne_record).2 hsecmem
    set rest := (s.particles.erase sub).erase second with hrest
    have hperm2 : (s.particles.erase sub).Perm (second :: rest) :=
      List.perm_cons_erase hsecmem2
    have hperm : s.particles.Perm (sub :: second :: rest) :=
      hperm1.trans (List.Perm.cons sub hperm2)
    have hpermpid : (s.particles.map Particle.pid).Perm
        (sub.pid :: second.pid :: rest.map Particle.pid) := by
      simpa using hperm.map Particle.pid
    have hndcons : (sub.pid :: second.pid :: rest.map Particle.pid).Nodup :=
      hpermpid.nodup_iff.1 hN
    have hbrest : ∀ p ∈ rest, p.pid ≠ b ∧ p.pid ≠ second.pid := by
      intro p hp
      have h1 : sub.pid ∉ second.pid :: rest.map Particle.pid := (List.nodup_cons.1 hndcons).1
      have h2 : second.pid ∉ rest.map Particle.pid :=
        (List.nodup_cons.1 (List.nodup_cons.1 hndcons).2).1
      constructor
      · intro he
        exact h1 (by
          right
          rw [hsubpid, ← he]
          exact List.mem_map_of_mem Particle.pid hp)
      · intro he
        exact h2 (by rw [← he]; exact List.mem_map_of_mem Particle.pid hp)
    have hkeeprest : rest.filter (fun p => decide (p.pid ∉ ([b, second.pid] : List Nat))) = rest := by
      apply List.filter_eq_self.2
      intro p hp
      have := hbrest p hp
      simp [this.1, this.2]
    have hkeepL : (decide (L.pid ∉ ([b, second.pid] : List Nat))) = true := by
      simp only [hLpid, List.mem_cons, List.not_mem_nil, or_false, decide_eq_true_eq]
      push_neg
      omega
    have hkeepsub : (decide (sub.pid ∉ ([b, second.pid] : List Nat))) = false := by
      simp [hsubpid]
    have hkeepsec : (decide (second.pid ∉ ([b, second.pid] : List Nat))) = false := by
      simp
    have hfilterP : (s.particles.filter
        (fun p => decide (p.pid ∉ ([b, second.pid] : List Nat)))).Perm rest := by
      have hp := hperm.filter (fun p => decide (p.pid ∉ ([b, second.pid] : List Nat)))
      simp only [List.filter_cons, hkeepsub, hkeepsec, Bool.false_eq_true, if_false] at hp
      rwa [hkeeprest] at hp
    have hflushPerm : (flush_mutations sFire).particles.Perm (rest ++ [L]) := by
      rw [hflushp, List.filter_append]
      refine List.Perm.append hfilterP ?_
      rw [show ([L].filter (fun p => decide (p.pid ∉ ([b, second.pid] : List Nat)))) = [L] by
        simp only [List.filter_cons, List.filter_nil, hkeepL, if_true]]
    -- counts
    have hcnt : ∀ q : Particle → Bool,
        ((flush_mutations sFire).particles.countP q) = rest.countP q + (if q L then 1 else 0) := by
      intro q
      rw [hflushPerm.countP_eq]
      rw [List.countP_append]
      cases hq : q L <;> simp [List.countP_cons, hq]
    have hcntS : ∀ q : Particle → Bool,
        s.particles.countP q =
          (if q sub then 1 else 0) + (if q second then 1 else 0) + rest.countP q := by
      intro q
      rw [hperm.countP_eq]
      rw [List.countP_cons, List.countP_cons]
      cases hq1 : q sub <;> cases hq2 : q second <;> simp [hq1, hq2] <;> omega
    refine ⟨?_, ?_, ?_, ?_, ?_⟩
    · have h1 : (flush_mutations sFire).particles.length = rest.length + 1 := by
        rw [hflushPerm.length_eq]
        simp
      have h2 : s.particles.length = rest.length + 2 := by
        rw [hperm.length_eq]
        simp
      omega
    · show ((flush_mutations sFire).particles.filter
          (fun p => p.ptype == PType.SUBSTRATE)).length + 2 =
        (s.particles.filter (fun p => p.ptype == PType.SUBSTRATE)).length
      rw [← List.countP_eq_length_filter, ← List.countP_eq_length_filter]
      rw [hcnt, hcntS]
      have hLty : (L.ptype == PType.SUBSTRATE) = false := by
        simp [hL, mkParticle]
      simp [hLty, hty, hsecty]
      omega
    · show ((flush_mutations sFire).particles.filter
          (fun p => p.ptype == PType.LINK)).length =
        (s.particles.filter (fun p => p.ptype == PType.LINK)).length + 1
      rw [← List.countP_eq_length_filter, ← List.countP_eq_length_filter]
      rw [hcnt, hcntS]
      have hLty : (L.ptype == PType.LINK) = true := by simp [hL, mkParticle]
      have hsty : (sub.ptype == PType.LINK) = false := by simp [hty]
      have hsty2 : (second.ptype == PType.LINK) = false := by simp [hsecty]
      simp [hLty, hsty, hsty2]
    · rw [hflushp]
      apply List.mem_filter.2
      exact ⟨List.mem_append_right _ (by simp [hL]), hkeepL⟩
    · intro p hp
      rw [hflushp] at hp
      have := (List.mem_filter.1 hp).2
      simp only [List.mem_cons, List.not_mem_nil, decide_eq_true_eq] at this
      push_neg at this
      exact ⟨this.1, this.2.1⟩

/-- Witness for C4: the concrete three-substrate state, event on substrate
1 choosing neighbour 0. -/
theorem C4_witness :
    (flush_mutations (handle_catalyst_substrate stateThreeSubstrates true 1 0)).particles.length
        + 1 = stateThreeSubstrates.particles.length ∧
    handle_catalyst_substrate stateThreeSubstrates false 1 0 = stateThreeSubstrates := by
  have h := C4_reaction_conservation stateThreeSubstrates 1 0 (mkParticle 1 PType.SUBSTRATE (10, 0))
    rfl (by simp [NodupPids, stateThreeSubstrates, mkParticle])
    (by intro p hp; fin_cases hp <;> simp [stateThreeSubstrates, mkParticle])
    (by simp [stateThreeSubstrates, shapeOwner, mkParticle, List.find?_cons])
    rfl
  refine ⟨?_, h.1⟩
  have h2 := h.2.2 (mkParticle 0 PType.SUBSTRATE (0, 0)) ?_
  · exact h2.1
  · norm_num [stateThreeSubstrates, nearby_substrates, mkParticle, List.filter_cons, dist2]

/-! Claim C2: a substrate already enqueued for removal can be selected again. -/

/-- C2 fails on the code: after a first separate event consumes substrates
1 and 0 (substrate 0 is now pending removal), a second separate event in
the same tick still selects substrate 0 as its neighbour and enqueues it a
second time — the nearby-substrate query does not exclude pending
removals. -/
theorem C2_pending_substrate_reselected :
    (0, (none : Option (Nat × Nat))) ∈
      (applyEv (Ev.catSub true 1 0) stateThreeSubstrates).to_remove ∧
    (applyEv (Ev.catSub true 2 0) (applyEv (Ev.catSub true 1 0) stateThreeSubstrates)).to_remove =
      [(1, none), (0, none), (2, none), (0, none)] := by
  norm_num [applyEv, handle_catalyst_substrate, shapeOwner, nearby_substrates,
    mkParticle, List.find?_cons, dist2, create_link, spawn, List.filter_cons,
    stateThreeSubstrates]

/-! Claim C3: degree invariant at every reachable state. -/

/-- Registry-level invariant: ids below the supply, pairwise-distinct ids,
constructor-correct degree bounds, and degrees within bounds. -/
def RegInvP (ps : List Particle) (n : Nat) : Prop :=
  (∀ p ∈ ps, p.pid < n) ∧ (ps.map Particle.pid).Nodup ∧
  (∀ p ∈ ps, p.max_connections = if p.ptype = PType.LINK then 2 else 0) ∧
  (∀ p ∈ ps, p.connections.length ≤ p.max_connections)

/-- State-level registry invariant. -/
def RegInv (s : SimState) : Prop := RegInvP s.particles s.nextId

theorem RegInvP_mono (ps : List Particle) (n m : Nat) (h : n ≤ m) (hI : RegInvP ps n) :
    RegInvP ps m :=
  ⟨fun p hp => lt_of_lt_of_le (hI.1 p hp) h, hI.2.1, hI.2.2.1, hI.2.2.2⟩

theorem RegInvP_map_general (ps : List Particle) (n : Nat) (g : Particle → Particle)
    (hg : ∀ p ∈ ps, (g p).pid = p.pid ∧ (g p).ptype = p.ptype ∧
      (g p).max_connections = p.max_connections)
    (hdeg : ∀ p ∈ ps, p.connections.length ≤ p.max_connections →
      (g p).connections.length ≤ (g p).max_connections)
    (hI : RegInvP ps n) : RegInvP (ps.map g) n := by
  obtain ⟨h1, h2, h3, h4⟩ := hI
  refine ⟨?_, ?_, ?_, ?_⟩
  · intro p hp
    obtain ⟨q, hq, rfl⟩ := List.mem_map.1 hp
    rw [(hg q hq).1]
    exact h1 q hq
  · rw [List.map_map]
    have he : List.map (Particle.pid ∘ g) ps = List.map Particle.pid ps :=
      List.map_congr_left (fun p hp => (hg p hp).1)
    rw [he]
    exact h2
  · intro p hp
    obtain ⟨q, hq, rfl⟩ := List.mem_map.1 hp
    rw [(hg q hq).2.2, (hg q hq).2.1]
    exact h3 q hq
  · intro p hp
    obtain ⟨q, hq, rfl⟩ := List.mem_map.1 hp
    exact hdeg q hq (h4 q hq)

theorem RegInvP_map (ps : List Particle) (n : Nat) (g : Particle → Particle)
    (hg : ∀ p ∈ ps, (g p).pid = p.pid ∧ (g p).ptype = p.ptype ∧
      (g p).max_connections = p.max_connections ∧
      (g p).connections.length ≤ p.connections.length)
    (hI : RegInvP ps n) : RegInvP (ps.map g) n := by
  refine RegInvP_map_general ps n g (fun p hp => ⟨(hg p hp).1, (hg p hp).2.1, (hg p hp).2.2.1⟩)
    (fun p hp hle => ?_) hI
  calc (g p).connections.length ≤ p.connections.length := (hg p hp).2.2.2
  _ ≤ p.max_connections := hle
  _ = (g p).max_connections := ((hg p hp).2.2.1).symm

theorem RegInvP_append_fresh (ps : List Particle) (n : Nat) (t : PType) (pos : ℚ × ℚ)
    (hI : RegInvP ps n) : RegInvP (ps ++ [mkParticle n t pos]) (n + 1) := by
  obtain ⟨h1, h2, h3, h4⟩ := hI
  refine ⟨?_, ?_, ?_, ?_⟩
  · intro p hp
    rcases List.mem_append.1 hp with h | h
    · exact lt_trans (h1 p h) (Nat.lt_succ_self n)
    · simp only [List.mem_singleton] at h
      subst h
      simp [mkParticle]
  · rw [List.map_append]
    refine List.Nodup.append h2 (by simp) ?_
    intro x hx hx2
    obtain ⟨q, hq, rfl⟩ := List.mem_map.1 hx
    simp only [List.map_cons, List.map_nil, List.mem_singleton, mkParticle] at hx2
    have := h1 q hq
    omega
  · intro p hp
    rcases List.mem_append.1 hp with h | h
    · exact h3 p h
    · simp only [List.mem_singleton] at h
      subst h
      simp [mkParticle]
  · intro p hp
    rcases List.mem_append.1 hp with h | h
    · exact h4 p h
    · simp only [List.mem_singleton] at h
      subst h
      simp [mkParticle]

theorem RegInvP_sublist (ps' ps : List Particle) (n : Nat) (hs : List.Sublist ps' ps)
    (hI : RegInvP ps n) : RegInvP ps' n :=
  ⟨fun p hp => hI.1 p (hs.subset hp), (hI.2.1).sublist (hs.map Particle.pid),
   fun p hp => hI.2.2.1 p (hs.subset hp), fun p hp => hI.2.2.2 p (hs.subset hp)⟩

theorem foldl_preserve {α : Type} (P : SimState → Prop) (f : SimState → α → SimState)
    (hf : ∀ st a, P st → P (f st a)) :
    ∀ (l : List α) (st : SimState), P st → P (l.foldl f st) := by
  intro l
  induction l with
  | nil => exact fun st h => h
  | cons a t ih => exact fun st h => ih (f st a) (hf st a h)

theorem RegInv_append_spawn (s : SimState) (t : PType) (pos : ℚ × ℚ) (hI : RegInv s) :
    RegInv { (spawn s t pos).1 with particles := (spawn s t pos).1.particles ++ [(spawn s t pos).2] } :=
  RegInvP_append_fresh s.particles s.nextId t pos hI

theorem RegInv_create_link (s : SimState) (pos : ℚ × ℚ) (hI : RegInv s) :
    RegInv (create_link s pos) :=
  RegInv_append_spawn s PType.LINK pos hI

theorem eq_of_mem_pid_eq (ps : List Particle) (hnd : (ps.map Particle.pid).Nodup)
    (p q : Particle) (hp : p ∈ ps) (hq : q ∈ ps) (h : p.pid = q.pid) : p = q :=
  List.inj_on_of_nodup_map hnd hp hq h

theorem RegInv_create_bond (s : SimState) (p1 p2 : Particle)
    (hm1 : p1 ∈ s.particles) (hm2 : p2 ∈ s.particles) (hne : p1.pid ≠ p2.pid)
    (hc1 : p1.connections.length < p1.max_connections)
    (hc2 : p2.connections.length < p2.max_connections)
    (hI : RegInv s) : RegInv (create_bond s p1.pid p2.pid) := by
  show RegInvP (addConn (addConn s.particles p1.pid p2.pid) p2.pid p1.pid) s.nextId
  simp only [addConn, List.map_map]
  refine RegInvP_map_general _ _ _ ?_ ?_ hI
  · intro q hq
    by_cases h1 : q.pid = p1.pid
    · have hqp : q = p1 := eq_of_mem_pid_eq s.particles hI.2.1 q p1 hq hm1 h1
      subst hqp
      exact ⟨by simp [hne], by simp [hne], by simp [hne]⟩
    · by_cases h2 : q.pid = p2.pid
      · have hqp : q = p2 := eq_of_mem_pid_eq s.particles hI.2.1 q p2 hq hm2 h2
        subst hqp
        exact ⟨by simp [h1], by simp [h1], by simp [h1]⟩
      · exact ⟨by simp [h1, h2], by simp [h1, h2], by simp [h1, h2]⟩
  · intro q hq hle
    by_cases h1 : q.pid = p1.pid
    · have hqp : q = p1 := eq_of_mem_pid_eq s.particles hI.2.1 q p1 hq hm1 h1
      subst hqp
      simp [hne]
      omega
    · by_cases h2 : q.pid = p2.pid
      · have hqp : q = p2 := eq_of_mem_pid_eq s.particles hI.2.1 q p2 hq hm2 h2
        subst hqp
        simp [h1]
        omega
      · simpa [h1, h2] using hle

theorem RegInv_handle_link_detection (s : SimState) (a h : Nat) (hI : RegInv s) :
    RegInv (handle_link_detection s a h) := by
  unfold handle_link_detection
  cases h1 : sensorOwner s.particles a with
  | none => exact hI
  | some p1 =>
    cases h2 : shapeOwner s.particles h with
    | none => exact hI
    | some p2 =>
      show RegInv (if BondGuard p1 p2 then create_bond s p1.pid p2.pid else s)
      by_cases hg : BondGuard p1 p2
      · rw [if_pos hg]
        exact RegInv_create_bond s p1 p2 (List.mem_of_find?_eq_some h1)
          (List.mem_of_find?_eq_some h2) hg.1 hg.2.1 hg.2.2.1 hI
      · rw [if_neg hg]
        exact hI

theorem RegInv_handle_catalyst_substrate (s : SimState) (roll : Bool) (b k : Nat)
    (hI : RegInv s) : RegInv (handle_catalyst_substrate s roll b k) := by
  cases hso : shapeOwner s.particles b with
  | none =>
    have he : handle_catalyst_substrate s roll b k = s := by
      unfold handle_catalyst_substrate
      rw [hso]
    rw [he]
    exact hI
  | some sub =>
    by_cases hty : sub.ptype = PType.SUBSTRATE
    · cases roll with
      | false =>
        have he : handle_catalyst_substrate s false b k = s := by
          unfold handle_catalyst_substrate
          rw [hso]
          simp [hty]
        rw [he]
        exact hI
      | true =>
        cases hch : (nearby_substrates s.particles b sub.pos)[k %
            (nearby_substrates s.particles b sub.pos).length]? with
        | none =>
          have he : handle_catalyst_substrate s true b k = s := by
            unfold handle_catalyst_substrate
            rw [hso]
            simp only [hty, if_true, if_pos]
            rw [hch]
          rw [he]
          exact hI
        | some second =>
          rw [handle_catalyst_substrate_fire s b k sub second hso hty hch]
          exact RegInv_create_link s _ hI
    · have he : handle_catalyst_substrate s roll b k = s := by
        unfold handle_catalyst_substrate
        rw [hso]
        simp [hty]
      rw [he]
      exact hI

theorem RegInv_set_positions (f : Nat → ℚ × ℚ) (s : SimState) (hI : RegInv s) :
    RegInv (set_positions f s) := by
  show RegInvP (s.particles.map fun p => { p with pos := f p.pid }) s.nextId
  refine RegInvP_map _ _ _ (fun p _ => ⟨rfl, rfl, rfl, le_refl _⟩) hI

theorem RegInvP_eraseFromConnections (ps : List Particle) (n cid pid : Nat)
    (hI : RegInvP ps n) : RegInvP (eraseFromConnections ps cid pid) n := by
  show RegInvP (ps.map fun q =>
    if q.pid = cid then { q with connections := q.connections.erase pid } else q) n
  refine RegInvP_map _ _ _ (fun p _ => ?_) hI
  by_cases h : p.pid = cid
  · refine ⟨?_, ?_, ?_, ?_⟩ <;> rw [if_pos h]
    exact (List.erase_sublist pid p.connections).length_le
  · refine ⟨?_, ?_, ?_, ?_⟩ <;> rw [if_neg h]

theorem RegInv_disintegrate_step (rolls : Nat → Bool) (st : SimState) (pid : Nat)
    (hI : RegInv st) : RegInv (disintegrate_step rolls st pid) := by
  unfold disintegrate_step
  cases hf : st.particles.find? (fun p => p.pid == pid) with
  | none => exact hI
  | some p =>
    show RegInv (if p.ptype = PType.LINK then _ else st)
    by_cases hL : p.ptype = PType.LINK
    · rw [if_pos hL]
      have hppid : p.pid = pid := by simpa using List.find?_some hf
      have hpm : p ∈ st.particles := List.mem_of_find?_eq_some hf
      have hI1 : RegInvP (st.particles.map
          (fun q => if q.pid = pid then { p with age := p.age + 1 } else q)) st.nextId := by
        refine RegInvP_map _ _ _ (fun q hq => ?_) hI
        by_cases h : q.pid = pid
        · have hqp : q = p :=
            eq_of_mem_pid_eq st.particles hI.2.1 q p hq hpm (h.trans hppid.symm)
          subst hqp
          refine ⟨?_, ?_, ?_, ?_⟩ <;> rw [if_pos h]
        · refine ⟨?_, ?_, ?_, ?_⟩ <;> rw [if_neg h]
      have herase : ∀ (cids : List Nat) (ps : List Particle), RegInvP ps st.nextId →
          RegInvP (cids.foldl (fun l cid => eraseFromConnections l cid pid) ps) st.nextId := by
        intro cids
        induction cids with
        | nil => exact fun ps h => h
        | cons c t ih => exact fun ps h => ih _ (RegInvP_eraseFromConnections ps _ c pid h)
      show RegInv (if ({ p with age := p.age + 1 } : Particle).age > 2 * 500 ∧ rolls pid = true
        then _ else _)
      by_cases htr : ({ p with age := p.age + 1 } : Particle).age > 2 * 500 ∧ rolls pid = true
      · rw [if_pos htr]
        exact RegInvP_mono _ _ _ (Nat.le_add_right _ 2) (herase _ _ hI1)
      · rw [if_neg htr]
        exact hI1
    · rw [if_neg hL]
      exact hI

theorem RegInv_handle_disintegration (rolls : Nat → Bool) (s : SimState) (hI : RegInv s) :
    RegInv (handle_disintegration rolls s) :=
  foldl_preserve RegInv (disintegrate_step rolls)
    (fun st a h => RegInv_disintegrate_step rolls st a h) _ s hI

theorem foldl_flush_sublist (ms : List (Nat × Option (Nat × Nat))) (st : SimState) :
    List.Sublist ((ms.foldl flush_one st).particles) st.particles := by
  induction ms generalizing st with
  | nil => exact List.Sublist.refl _
  | cons m rest ih =>
    rw [List.foldl_cons]
    refine (ih (flush_one st m)).trans ?_
    rw [flush_one_particles]
    unfold remove_particle
    cases hf : st.particles.find? (fun p => p.pid == m.1) with
    | none => exact List.Sublist.refl _
    | some p => exact List.eraseP_sublist st.particles

theorem foldl_flush_nextId (ms : List (Nat × Option (Nat × Nat))) (st : SimState) :
    (ms.foldl flush_one st).nextId = st.nextId := by
  induction ms generalizing st with
  | nil => rfl
  | cons m rest ih =>
    rw [List.foldl_cons, ih (flush_one st m), flush_one_nextId, remove_particle_nextId]

theorem RegInv_flush_mutations (s : SimState) (hI : RegInv s) :
    RegInv (flush_mutations s) := by
  show RegInvP (s.to_remove.foldl flush_one s).particles (s.to_remove.foldl flush_one s).nextId
  rw [foldl_flush_nextId]
  exact RegInvP_sublist _ _ _ (foldl_flush_sublist s.to_remove s) hI

theorem RegInv_applyEv (e : Ev) (s : SimState) (hI : RegInv s) : RegInv (applyEv e s) := by
  cases e with
  | catSub roll b k => exact RegInv_handle_catalyst_substrate s roll b k hI
  | linkDet a b => exact RegInv_handle_link_detection s a b hI
  | motion f => exact RegInv_set_positions f s hI

theorem RegInv_applyOp (o : Op) (s : SimState) (hI : RegInv s) : RegInv (applyOp o s) := by
  cases o with
  | ev e => exact RegInv_applyEv e s hI
  | disint r => exact RegInv_handle_disintegration r s hI
  | flush => exact RegInv_flush_mutations s hI

theorem RegInv_setup_simulation (poss : Nat → ℚ × ℚ) : RegInv (setup_simulation poss) := by
  apply foldl_preserve RegInv
  · intro st a h
    exact RegInv_append_spawn st PType.SUBSTRATE (poss st.nextId) h
  · refine RegInvP_append_fresh [] 0 PType.CATALYST (400, 400) ?_
    refine ⟨?_, by simp, ?_, ?_⟩ <;> intro p hp <;> simp at hp

/-- C3: at every state reachable from the initial setup by any sequence of
engine operations (reaction events, bond-formation events, motion,
disintegration passes, flushes), every LINK particle has between 0 and 2
entries in its connections list, and every non-LINK particle has an empty
connections list. -/
theorem C3_connection_bounds (poss : Nat → ℚ × ℚ) (ops : List Op) :
    ∀ p ∈ (applyOps ops (setup_simulation poss)).particles,
      (p.ptype = PType.LINK → 0 ≤ p.connections.length ∧ p.connections.length ≤ 2) ∧
      (p.ptype ≠ PType.LINK → p.connections = []) := by
  have hI : RegInv (applyOps ops (setup_simulation poss)) :=
    foldl_preserve RegInv (fun st o => applyOp o st)
      (fun st o h => RegInv_applyOp o st h) ops _ (RegInv_setup_simulation poss)
  intro p hp
  have hmax := hI.2.2.1 p hp
  have hdeg := hI.2.2.2 p hp
  constructor
  · intro hL
    rw [hmax, if_pos hL] at hdeg
    exact ⟨Nat.zero_le _, hdeg⟩
  · intro hNL
    rw [hmax, if_neg hNL] at hdeg
    exact List.length_eq_zero.1 (Nat.le_zero.1 hdeg)

theorem mem_foldl_append {α : Type} (f : SimState → α → SimState)
    (hf : ∀ (st : SimState) (a : α) (p : Particle), p ∈ st.particles → p ∈ (f st a).particles) :
    ∀ (l : List α) (st : SimState) (p : Particle), p ∈ st.particles →
      p ∈ (l.foldl f st).particles := by
  intro l
  induction l with
  | nil => exact fun st p h => h
  | cons a t ih => exact fun st p h => ih (f st a) p (hf st a p h)

theorem catalyst_mem_setup (poss : Nat → ℚ × ℚ) :
    mkParticle 0 PType.CATALYST (400, 400) ∈ (setup_simulation poss).particles := by
  apply mem_foldl_append
  · intro st a p h
    exact List.mem_append_left _ h
  · exact List.mem_singleton.2 rfl

theorem applyOps_nil (s : SimState) : applyOps [] s = s := rfl

/-- Witness for C3 at the initial state with the empty operation sequence,
instantiated at the catalyst particle. -/
theorem C3_witness :
    (mkParticle 0 PType.CATALYST (400, 400)).connections = [] := by
  have h := C3_connection_bounds (fun _ => (0, 0)) []
  rw [applyOps_nil] at h
  exact (h (mkParticle 0 PType.CATALYST (400, 400))
    (catalyst_mem_setup (fun _ => (0, 0)))).2 (by simp [mkParticle])

/-! Claim C9: every enqueued mutation has a null bond, and the bonds list
never shrinks. -/

/-- Every queued mutation carries no bond component. -/
def AllNone (s : SimState) : Prop := ∀ m ∈ s.to_remove, m.2 = none

/-- Suffix-level version. -/
def AllNoneL (l : List (Nat × Option (Nat × Nat))) : Prop := ∀ m ∈ l, m.2 = none

theorem handle_link_detection_effect (s : SimState) (a h : Nat) :
    (handle_link_detection s a h).to_remove = s.to_remove ∧
    (handle_link_detection s a h).bonds.length = s.bonds.length ∨
    (handle_link_detection s a h).to_remove = s.to_remove ∧
    (handle_link_detection s a h).bonds.length = s.bonds.length + 1 := by
  cases h1 : sensorOwner s.particles a with
  | none =>
    have he : handle_link_detection s a h = s := by
      unfold handle_link_detection
      rw [h1]
    exact Or.inl ⟨by rw [he], by rw [he]⟩
  | some p1 =>
    cases h2 : shapeOwner s.particles h with
    | none =>
      have he : handle_link_detection s a h = s := by
        unfold handle_link_detection
        rw [h1, h2]
      exact Or.inl ⟨by rw [he], by rw [he]⟩
    | some p2 =>
      have hdef : handle_link_detection s a h =
          if BondGuard p1 p2 then create_bond s p1.pid p2.pid else s := by
        unfold handle_link_detection
        rw [h1, h2]
      by_cases hg : BondGuard p1 p2
      · rw [hdef, if_pos hg]
        refine Or.inr ⟨rfl, ?_⟩
        show (s.bonds ++ [(p1.pid, p2.pid)]).length = _
        simp
      · rw [hdef, if_neg hg]
        exact Or.inl ⟨rfl, rfl⟩

theorem handle_catalyst_substrate_effect (s : SimState) (roll : Bool) (b k : Nat) :
    ∃ suffix : List (Nat × Option (Nat × Nat)), AllNoneL suffix ∧
      (handle_catalyst_substrate s roll b k).to_remove = s.to_remove ++ suffix ∧
      (handle_catalyst_substrate s roll b k).bonds = s.bonds := by
  cases hso : shapeOwner s.particles b with
  | none =>
    have he : handle_catalyst_substrate s roll b k = s := by
      unfold handle_catalyst_substrate
      rw [hso]
    exact ⟨[], by simp [AllNoneL], by rw [he, List.append_nil], by rw [he]⟩
  | some sub =>
    by_cases hty : sub.ptype = PType.SUBSTRATE
    · cases roll with
      | false =>
        have he : handle_catalyst_substrate s false b k = s := by
          unfold handle_catalyst_substrate
          rw [hso]
          simp [hty]
        exact ⟨[], by simp [AllNoneL], by rw [he, List.append_nil], by rw [he]⟩
      | true =>
        cases hch : (nearby_substrates s.particles b sub.pos)[k %
            (nearby_substrates s.particles b sub.pos).length]? with
        | none =>
          have he : handle_catalyst_substrate s true b k = s := by
            unfold handle_catalyst_substrate
            rw [hso]
            simp only [hty, if_true, if_pos]
            rw [hch]
          exact ⟨[], by simp [AllNoneL], by rw [he, List.append_nil], by rw [he]⟩
        | some second =>
          rw [handle_catalyst_substrate_fire s b k sub second hso hty hch]
          exact ⟨[(b, none), (second.pid, none)], by simp [AllNoneL], rfl, rfl⟩
    · have he : handle_catalyst_substrate s roll b k = s := by
        unfold handle_catalyst_substrate
        rw [hso]
        simp [hty]
      exact ⟨[], by simp [AllNoneL], by rw [he, List.append_nil], by rw [he]⟩

theorem disintegrate_step_effect (rolls : Nat → Bool) (st : SimState) (pid : Nat) :
    ∃ suffix : List (Nat × Option (Nat × Nat)), AllNoneL suffix ∧
      (disintegrate_step rolls st pid).to_remove = st.to_remove ++ suffix ∧
      (disintegrate_step rolls st pid).bonds = st.bonds := by
  unfold disintegrate_step
  cases hf : st.particles.find? (fun p => p.pid == pid) with
  | none => exact ⟨[], by simp [AllNoneL], by simp, rfl⟩
  | some p =>
    by_cases hL : p.ptype = PType.LINK
    · by_cases htr : ({ p with age := p.age + 1 } : Particle).age > 2 * 500 ∧ rolls pid = true
      · refine ⟨[(pid, none)], by simp [AllNoneL], ?_, ?_⟩ <;>
          simp [spawn, if_pos hL, if_pos htr]
      · refine ⟨[], by simp [AllNoneL], ?_, ?_⟩ <;>
          simp only [if_pos hL, if_neg htr, List.append_nil]
    · refine ⟨[], by simp [AllNoneL], ?_, ?_⟩ <;>
        simp only [if_neg hL, List.append_nil]

theorem handle_disintegration_effect (rolls : Nat → Bool) (s : SimState) :
    ∃ suffix : List (Nat × Option (Nat × Nat)), AllNoneL suffix ∧
      (handle_disintegration rolls s).to_remove = s.to_remove ++ suffix ∧
      (handle_disintegration rolls s).bonds = s.bonds := by
  suffices h : ∀ (l : List Nat) (st : SimState),
      ∃ suffix, AllNoneL suffix ∧
        (l.foldl (disintegrate_step rolls) st).to_remove = st.to_remove ++ suffix ∧
        (l.foldl (disintegrate_step rolls) st).bonds = st.bonds by
    exact h _ s
  intro l
  induction l with
  | nil => exact fun st => ⟨[], by simp [AllNoneL], by simp, rfl⟩
  | cons a t ih =>
    intro st
    obtain ⟨s1, h1, h2, h3⟩ := disintegrate_step_effect rolls st a
    obtain ⟨s2, g1, g2, g3⟩ := ih (disintegrate_step rolls st a)
    refine ⟨s1 ++ s2, ?_, ?_, ?_⟩
    · intro m hm
      rcases List.mem_append.1 hm with hm | hm
      · exact h1 m hm
      · exact g1 m hm
    · rw [List.foldl_cons] at *
      rw [g2, h2, List.append_assoc]
    · rw [List.foldl_cons] at *
      rw [g3, h3]

theorem flush_bonds_of_allnone (ms : List (Nat × Option (Nat × Nat))) (st : SimState)
    (h : AllNoneL ms) : (ms.foldl flush_one st).bonds = st.bonds := by
  induction ms generalizing st with
  | nil => rfl
  | cons m rest ih =>
    rw [List.foldl_cons]
    have hm : m.2 = none := h m (List.mem_cons_self m rest)
    have h1 : (flush_one st m).bonds = st.bonds := by
      unfold flush_one
      rw [hm]
      exact remove_particle_bonds st m.1
    rw [ih (flush_one st m) (fun x hx => h x (List.mem_cons_of_mem m hx)), h1]

theorem AllNone_applyOp (o : Op) (s : SimState) (h : AllNone s) : AllNone (applyOp o s) := by
  cases o with
  | ev e =>
    cases e with
    | catSub roll b k =>
      obtain ⟨suffix, h1, h2, _⟩ := handle_catalyst_substrate_effect s roll b k
      show AllNone (handle_catalyst_substrate s roll b k)
      intro m hm
      rw [h2] at hm
      rcases List.mem_append.1 hm with hm | hm
      · exact h m hm
      · exact h1 m hm
    | linkDet a b =>
      rcases handle_link_detection_effect s a b with ⟨h1, _⟩ | ⟨h1, _⟩ <;>
        exact fun m hm => h m (h1 ▸ hm)
    | motion f => exact h
  | disint rolls =>
    obtain ⟨suffix, h1, h2, _⟩ := handle_disintegration_effect rolls s
    intro m hm
    rw [show (applyOp (Op.disint rolls) s).to_remove =
      (handle_disintegration rolls s).to_remove from rfl, h2] at hm
    rcases List.mem_append.1 hm with hm | hm
    · exact h m hm
    · exact h1 m hm
  | flush => exact fun m hm => absurd hm (by simp [applyOp, flush_mutations_to_remove])

theorem bonds_mono_applyOp (o : Op) (s : SimState) (h : AllNone s) :
    s.bonds.length ≤ (applyOp o s).bonds.length := by
  cases o with
  | ev e =>
    cases e with
    | catSub roll b k =>
      obtain ⟨suffix, _, _, h3⟩ := handle_catalyst_substrate_effect s roll b k
      exact le_of_eq (by rw [show applyOp (Op.ev (Ev.catSub roll b k)) s =
        handle_catalyst_substrate s roll b k from rfl, h3])
    | linkDet a b =>
      show s.bonds.length ≤ (handle_link_detection s a b).bonds.length
      rcases handle_link_detection_effect s a b with ⟨_, h2⟩ | ⟨_, h2⟩ <;> omega
    | motion f => exact le_refl _
  | disint rolls =>
    obtain ⟨suffix, _, _, h3⟩ := handle_disintegration_effect rolls s
    exact le_of_eq (by rw [show applyOp (Op.disint rolls) s =
      handle_disintegration rolls s from rfl, h3])
  | flush =>
    show s.bonds.length ≤ (flush_mutations s).bonds.length
    rw [show (flush_mutations s).bonds = (s.to_remove.foldl flush_one s).bonds from rfl,
      flush_bonds_of_allnone s.to_remove s h]

theorem AllNone_setup (poss : Nat → ℚ × ℚ) : AllNone (setup_simulation poss) := by
  have hgen : ∀ (l : List Nat) (st : SimState), AllNone st →
      AllNone (l.foldl (fun st _ =>
        let sp := spawn st PType.SUBSTRATE (poss st.nextId)
        { sp.1 with particles := sp.1.particles ++ [sp.2] }) st) := by
    intro l
    induction l with
    | nil => exact fun st h => h
    | cons a t ih => exact fun st h => ih _ (fun m hm => h m hm)
  exact hgen _ _ (fun m hm => absurd hm (by simp [spawn]))

theorem AllNone_reachable (poss : Nat → ℚ × ℚ) (ops : List Op) :
    AllNone (applyOps ops (setup_simulation poss)) :=
  foldl_preserve AllNone (fun st o => applyOp o st)
    (fun st o h => AllNone_applyOp o st h) ops _ (AllNone_setup poss)

/-- C9: at every reachable state, every Pending Mutation in the queue
carries a null bond component, and applying one further engine operation
never decreases the reported bond count statistic: the bonds list is
monotonically non-decreasing over the whole run, so no spring constraint is
ever removed. -/
theorem C9_bonds_monotone (poss : Nat → ℚ × ℚ) (ops : List Op) (o : Op) :
    (∀ m ∈ (applyOps ops (setup_simulation poss)).to_remove, m.2 = none) ∧
    (update_stats (applyOps ops (setup_simulation poss))).bonds ≤
      (update_stats (applyOps (ops ++ [o]) (setup_simulation poss))).bonds := by
  have hA := AllNone_reachable poss ops
  refine ⟨hA, ?_⟩
  show (applyOps ops (setup_simulation poss)).bonds.length ≤
    (applyOps (ops ++ [o]) (setup_simulation poss)).bonds.length
  rw [show applyOps (ops ++ [o]) (setup_simulation poss) =
    applyOp o (applyOps ops (setup_simulation poss)) from by
      unfold applyOps
      rw [List.foldl_append]
      rfl]
  exact bonds_mono_applyOp o _ hA

/-- Witness for C9: the empty operation sequence followed by one flush. -/
theorem C9_witness :
    (update_stats (applyOps [] (setup_simulation (fun _ => (0, 0))))).bonds ≤
      (update_stats (applyOps ([] ++ [Op.flush]) (setup_simulation (fun _ => (0, 0))))).bonds :=
  (C9_bonds_monotone (fun _ => (0, 0)) [] Op.flush).2

/-! Claim C10: symmetry of the connections relation at tick boundaries. -/

/-- Structural invariant of the connectivity graph, relative to the pending
removal ids `R`: connection lists are duplicate-free, no self-loops, every
referenced id belongs to a live LINK particle, and every asymmetric edge
has its listing endpoint pending. -/
def SInv (ps : List Particle) (R : List Nat) : Prop :=
  (∀ p ∈ ps, p.connections.Nodup) ∧
  (∀ p ∈ ps, p.pid ∉ p.connections) ∧
  (∀ p ∈ ps, ∀ c ∈ p.connections, ∃ q ∈ ps, q.pid = c ∧ q.ptype = PType.LINK) ∧
  (∀ p ∈ ps, ∀ q ∈ ps, q.pid ∈ p.connections → p.pid ∈ q.connections ∨ p.pid ∈ R)

/-- Every particle with a pending id is not a LINK (during the event phase,
only substrates have been enqueued). -/
def PendingNotLink (s : SimState) : Prop :=
  ∀ r ∈ removalIds s, ∀ p ∈ s.particles, p.pid = r → p.ptype ≠ PType.LINK

/-- Pending ids are below the id supply. -/
def PendingFresh (s : SimState) : Prop := ∀ r ∈ removalIds s, r < s.nextId

/-- Every live particle listing a pending id is itself pending. -/
def ListersPending (s : SimState) : Prop :=
  ∀ r ∈ removalIds s, ∀ p ∈ s.particles, r ∈ p.connections → p.pid ∈ removalIds s

/-- Event-phase invariant: registry invariant, fully symmetric connectivity,
and all pending removals are non-links with fresh ids. -/
def InvE (s : SimState) : Prop :=
  RegInv s ∧ SInv s.particles [] ∧ PendingNotLink s ∧ PendingFresh s

/-- Disintegration-phase invariant: symmetry may be broken only at pending
particles, and listers of pending particles are pending. -/
def InvD (s : SimState) : Prop :=
  RegInv s ∧ SInv s.particles (removalIds s) ∧ ListersPending s

/-- Tick-boundary invariant: event-phase invariant with an empty queue. -/
def InvO (s : SimState) : Prop := InvE s ∧ s.to_remove = []

theorem SInv_mono_R (ps : List Particle) (R R' : List Nat) (hR : ∀ r ∈ R, r ∈ R')
    (h : SInv ps R) : SInv ps R' :=
  ⟨h.1, h.2.1, h.2.2.1, fun p hp q hq hm =>
    (h.2.2.2 p hp q hq hm).imp id (fun hr => hR _ hr)⟩

theorem SInv_map (ps : List Particle) (R : List Nat) (g : Particle → Particle)
    (hg : ∀ p ∈ ps, (g p).pid = p.pid ∧ (g p).ptype = p.ptype ∧
      (g p).connections = p.connections)
    (h : SInv ps R) : SInv (ps.map g) R := by
  obtain ⟨h1, h2, h3, h4⟩ := h
  refine ⟨?_, ?_, ?_, ?_⟩
  · intro p hp
    obtain ⟨a, ha, rfl⟩ := List.mem_map.1 hp
    rw [(hg a ha).2.2]
    exact h1 a ha
  · intro p hp
    obtain ⟨a, ha, rfl⟩ := List.mem_map.1 hp
    rw [(hg a ha).1, (hg a ha).2.2]
    exact h2 a ha
  · intro p hp c hc
    obtain ⟨a, ha, rfl⟩ := List.mem_map.1 hp
    rw [(hg a ha).2.2] at hc
    obtain ⟨q, hq, hqpid, hqty⟩ := h3 a ha c hc
    exact ⟨g q, List.mem_map_of_mem g hq, by rw [(hg q hq).1]; exact hqpid,
      by rw [(hg q hq).2.1]; exact hqty⟩
  · intro p hp q hq hm
    obtain ⟨a, ha, rfl⟩ := List.mem_map.1 hp
    obtain ⟨b, hb, rfl⟩ := List.mem_map.1 hq
    rw [(hg b hb).1] at hm
    rw [(hg a ha).2.2] at hm
    rw [(hg a ha).1, (hg b hb).2.2]
    exact h4 a ha b hb hm

theorem SInv_append (ps : List Particle) (R : List Nat) (x : Particle)
    (hx : x.connections = []) (hfresh : ∀ p ∈ ps, x.pid ∉ p.connections)
    (h : SInv ps R) : SInv (ps ++ [x]) R := by
  obtain ⟨h1, h2, h3, h4⟩ := h
  have hmem : ∀ p ∈ ps ++ [x], p ∈ ps ∨ p = x := by
    intro p hp
    rcases List.mem_append.1 hp with hp | hp
    · exact Or.inl hp
    · exact Or.inr (List.mem_singleton.1 hp)
  refine ⟨?_, ?_, ?_, ?_⟩
  · intro p hp
    rcases hmem p hp with hp | rfl
    · exact h1 p hp
    · rw [hx]; exact List.nodup_nil
  · intro p hp
    rcases hmem p hp with hp | rfl
    · exact h2 p hp
    · rw [hx]; exact List.not_mem_nil _
  · intro p hp c hc
    rcases hmem p hp with hp | rfl
    · obtain ⟨q, hq, hqpid, hqty⟩ := h3 p hp c hc
      exact ⟨q, List.mem_append_left _ hq, hqpid, hqty⟩
    · rw [hx] at hc
      exact absurd hc (List.not_mem_nil c)
  · intro p hp q hq hm
    rcases hmem q hq with hq2 | hq2
    · rcases hmem p hp with hp2 | hp2
      · exact (h4 p hp2 q hq2 hm).imp (fun h => h) id
      · rw [hp2, hx] at hm
        exact absurd hm (List.not_mem_nil _)
    · rcases hmem p hp with hp2 | hp2
      · rw [hq2] at hm
        exact absurd hm (hfresh p hp2)
      · rw [hp2, hx] at hm
        exact absurd hm (List.not_mem_nil _)

theorem catSub_cases (s : SimState) (roll : Bool) (b k : Nat) :
    handle_catalyst_substrate s roll b k = s ∨
    ∃ sub second, sub ∈ s.particles ∧ sub.pid = b ∧ sub.ptype = PType.SUBSTRATE ∧
      second ∈ s.particles ∧ second.ptype = PType.SUBSTRATE ∧ second.pid ≠ b ∧
      handle_catalyst_substrate s roll b k =
        { create_link s ((sub.pos.1 + second.pos.1) / 2, (sub.pos.2 + second.pos.2) / 2) with
          to_remove := s.to_remove ++ [(b, none), (second.pid, none)] } := by
  cases hso : shapeOwner s.particles b with
  | none =>
    refine Or.inl ?_
    unfold handle_catalyst_substrate
    rw [hso]
  | some sub =>
    by_cases hty : sub.ptype = PType.SUBSTRATE
    · cases roll with
      | false =>
        refine Or.inl ?_
        unfold handle_catalyst_substrate
        rw [hso]
        simp [hty]
      | true =>
        cases hch : (nearby_substrates s.particles b sub.pos)[k %
            (nearby_substrates s.particles b sub.pos).length]? with
        | none =>
          refine Or.inl ?_
          unfold handle_catalyst_substrate
          rw [hso]
          simp only [hty, if_true, if_pos]
          rw [hch]
        | some second =>
          have hsecnear := List.getElem?_mem hch
          have hsec := List.mem_filter.1 hsecnear
          have hsecf := hsec.2
          simp only [Bool.and_eq_true, beq_iff_eq, bne_iff_ne] at hsecf
          exact Or.inr ⟨sub, second, List.mem_of_find?_eq_some hso,
            by simpa using List.find?_some hso, hty, hsec.1, hsecf.1.1, hsecf.1.2,
            handle_catalyst_substrate_fire s b k sub second hso hty hch⟩
    · refine Or.inl ?_
      unfold handle_catalyst_substrate
      rw [hso]
      simp [hty]

theorem linkDet_cases (s : SimState) (a h : Nat) :
    handle_link_detection s a h = s ∨
    ∃ p1 p2, sensorOwner s.particles a = some p1 ∧ shapeOwner s.particles h = some p2 ∧
      BondGuard p1 p2 ∧ handle_link_detection s a h = create_bond s p1.pid p2.pid := by
  cases h1 : sensorOwner s.particles a with
  | none =>
    refine Or.inl ?_
    unfold handle_link_detection
    rw [h1]
  | some p1 =>
    cases h2 : shapeOwner s.particles h with
    | none =>
      refine Or.inl ?_
      unfold handle_link_detection
      rw [h1, h2]
    | some p2 =>
      have hdef : handle_link_detection s a h =
          if BondGuard p1 p2 then create_bond s p1.pid p2.pid else s := by
        unfold handle_link_detection
        rw [h1, h2]
      by_cases hg : BondGuard p1 p2
      · exact Or.inr ⟨p1, p2, rfl, rfl, hg, by rw [hdef, if_pos hg]⟩
      · exact Or.inl (by rw [hdef, if_neg hg])

theorem SInv_create_bond (s : SimState) (p1 p2 : Particle)
    (hm1 : p1 ∈ s.particles) (hm2 : p2 ∈ s.particles)
    (hne : p1.pid ≠ p2.pid) (hmem : p2.pid ∉ p1.connections)
    (hty1 : p1.ptype = PType.LINK) (hty2 : p2.ptype = PType.LINK)
    (hN : NodupPids s) (h : SInv s.particles []) :
    SInv (create_bond s p1.pid p2.pid).particles [] := by
  obtain ⟨h1, h2, h3, h4⟩ := h
  have hSym : ∀ x ∈ s.particles, ∀ y ∈ s.particles,
      y.pid ∈ x.connections → x.pid ∈ y.connections := by
    intro x hx y hy hm
    rcases h4 x hx y hy hm with h | h
    · exact h
    · exact absurd h (List.not_mem_nil _)
  have hmem2 : p1.pid ∉ p2.connections := by
    intro hc
    exact hmem (hSym p2 hm2 p1 hm1 hc)
  set u : Particle → Particle := fun q =>
    if q.pid = p1.pid then { q with connections := q.connections ++ [p2.pid] }
    else if q.pid = p2.pid then { q with connections := q.connections ++ [p1.pid] }
    else q with hu
  have hgoal : (create_bond s p1.pid p2.pid).particles = s.particles.map u := by
    show addConn (addConn s.particles p1.pid p2.pid) p2.pid p1.pid = _
    simp only [addConn, List.map_map]
    refine List.map_congr_left (fun q _ => ?_)
    rw [hu]
    simp only [Function.comp_apply]
    by_cases hq1 : q.pid = p1.pid
    · simp [hq1, hne]
    · by_cases hq2 : q.pid = p2.pid <;> simp [hq1, hq2, Ne.symm hne]
  rw [hgoal]
  have hufields : ∀ q, (u q).pid = q.pid ∧ (u q).ptype = q.ptype := by
    intro q
    rw [hu]
    by_cases hq1 : q.pid = p1.pid
    · simp [hq1]
    · by_cases hq2 : q.pid = p2.pid <;> simp [hq1, hq2, Ne.symm hne]
  have huconn : ∀ q ∈ s.particles, (u q).connections = q.connections ∨
      (q = p1 ∧ (u q).connections = q.connections ++ [p2.pid]) ∨
      (q = p2 ∧ (u q).connections = q.connections ++ [p1.pid]) := by
    intro q hq
    rw [hu]
    by_cases hq1 : q.pid = p1.pid
    · exact Or.inr (Or.inl ⟨eq_of_mem_pid_eq s.particles hN q p1 hq hm1 hq1, by simp [hq1]⟩)
    · by_cases hq2 : q.pid = p2.pid
      · exact Or.inr (Or.inr ⟨eq_of_mem_pid_eq s.particles hN q p2 hq hm2 hq2,
          by simp [hq1, hq2, Ne.symm hne]⟩)
      · exact Or.inl (by simp [hq1, hq2])
  refine ⟨?_, ?_, ?_, ?_⟩
  · intro p hp
    obtain ⟨q, hq, rfl⟩ := List.mem_map.1 hp
    rcases huconn q hq with hc | ⟨rfl, hc⟩ | ⟨rfl, hc⟩
    · rw [hc]
      exact h1 q hq
    · rw [hc]
      refine List.Nodup.append (h1 _ hq) (by simp) ?_
      intro a ha hb
      rw [List.mem_singleton.1 hb] at ha
      exact hmem ha
    · rw [hc]
      refine List.Nodup.append (h1 _ hq) (by simp) ?_
      intro a ha hb
      rw [List.mem_singleton.1 hb] at ha
      exact hmem2 ha
  · intro p hp
    obtain ⟨q, hq, rfl⟩ := List.mem_map.1 hp
    rw [(hufields q).1]
    rcases huconn q hq with hc | ⟨rfl, hc⟩ | ⟨rfl, hc⟩
    · rw [hc]
      exact h2 q hq
    · rw [hc]
      simp only [List.mem_append, List.mem_singleton]
      rintro (hx | hx)
      · exact h2 q hq hx
      · exact hne hx
    · rw [hc]
      simp only [List.mem_append, List.mem_singleton]
      rintro (hx | hx)
      · exact h2 q hq hx
      · exact hne hx.symm
  · intro p hp c hc
    obtain ⟨q, hq, rfl⟩ := List.mem_map.1 hp
    have hwit : ∀ c₀, (∃ w ∈ s.particles, w.pid = c₀ ∧ w.ptype = PType.LINK) →
        ∃ w ∈ s.particles.map u, w.pid = c₀ ∧ w.ptype = PType.LINK := by
      rintro c₀ ⟨w, hw, hwp, hwt⟩
      exact ⟨u w, List.mem_map_of_mem u hw, by rw [(hufields w).1]; exact hwp,
        by rw [(hufields w).2]; exact hwt⟩
    rcases huconn q hq with hcc | ⟨rfl, hcc⟩ | ⟨rfl, hcc⟩
    · exact hwit c (h3 q hq c (hcc ▸ hc))
    · rw [hcc] at hc
      rcases List.mem_append.1 hc with hc | hc
      · exact hwit c (h3 q hq c hc)
      · rw [List.mem_singleton.1 hc]
        exact hwit p2.pid ⟨p2, hm2, rfl, hty2⟩
    · rw [hcc] at hc
      rcases List.mem_append.1 hc with hc | hc
      · exact hwit c (h3 q hq c hc)
      · rw [List.mem_singleton.1 hc]
        exact hwit p1.pid ⟨p1, hm1, rfl, hty1⟩
  · intro p hp q hq hm
    obtain ⟨a, ha, rfl⟩ := List.mem_map.1 hp
    obtain ⟨b, hb, rfl⟩ := List.mem_map.1 hq
    rw [(hufields b).1] at hm
    rw [(hufields a).1]
    refine Or.inl ?_
    have hbsup : ∀ x : Particle, x ∈ s.particles → x.connections ⊆ (u x).connections := by
      intro x hx
      rcases huconn x hx with hc | ⟨_, hc⟩ | ⟨_, hc⟩ <;> rw [hc]
      · exact fun _ h => h
      · exact fun _ h => List.mem_append_left _ h
      · exact fun _ h => List.mem_append_left _ h
    have hup1 : (u p1).connections = p1.connections ++ [p2.pid] := by
      rw [hu]
      simp
    have hup2 : (u p2).connections = p2.connections ++ [p1.pid] := by
      rw [hu]
      simp [Ne.symm hne]
    rcases huconn a ha with hc | ⟨rfl, hc⟩ | ⟨rfl, hc⟩
    · rw [hc] at hm
      exact hbsup b hb (hSym a ha b hb hm)
    · rw [hc] at hm
      rcases List.mem_append.1 hm with hm | hm
      · exact hbsup b hb (hSym a ha b hb hm)
      · have hbp : b = p2 :=
          eq_of_mem_pid_eq s.particles hN b p2 hb hm2 (List.mem_singleton.1 hm)
        subst hbp
        rw [hup2]
        exact List.mem_append_right _ (by simp)
    · rw [hc] at hm
      rcases List.mem_append.1 hm with hm | hm
      · exact hbsup b hb (hSym a ha b hb hm)
      · have hbp : b = p1 :=
          eq_of_mem_pid_eq s.particles hN b p1 hb hm1 (List.mem_singleton.1 hm)
        subst hbp
        rw [hup1]
        exact List.mem_append_right _ (by simp)

theorem PendingNotLink_transfer (s s' : SimState)
    (hR : removalIds s' = removalIds s)
    (hp : ∀ p ∈ s'.particles, ∃ q ∈ s.particles, p.pid = q.pid ∧ p.ptype = q.ptype)
    (h : PendingNotLink s) : PendingNotLink s' := by
  intro r hr p hp' hpid
  obtain ⟨q, hq, hpd, hty⟩ := hp p hp'
  rw [hty]
  exact h r (hR ▸ hr) q hq (by rw [← hpd]; exact hpid)

theorem InvE_set_positions (f : Nat → ℚ × ℚ) (s : SimState) (h : InvE s) :
    InvE (set_positions f s) := by
  obtain ⟨hReg, hS, hP, hF⟩ := h
  refine ⟨RegInv_set_positions f s hReg, ?_, ?_, hF⟩
  · exact SInv_map s.particles [] _ (fun p _ => ⟨rfl, rfl, rfl⟩) hS
  · refine PendingNotLink_transfer s (set_positions f s) rfl ?_ hP
    intro p hp
    obtain ⟨q, hq, rfl⟩ := List.mem_map.1 hp
    exact ⟨q, hq, rfl, rfl⟩

theorem InvE_handle_catalyst_substrate (s : SimState) (roll : Bool) (b k : Nat)
    (h : InvE s) : InvE (handle_catalyst_substrate s roll b k) := by
  obtain ⟨hReg, hS, hP, hF⟩ := h
  rcases catSub_cases s roll b k with he | ⟨sub, second, hsubm, hsubpid, hsubty,
    hsecm, hsecty, hsecne, he⟩
  · rw [he]
    exact ⟨hReg, hS, hP, hF⟩
  · rw [he]
    have hfreshL : ∀ p ∈ s.particles, s.nextId ∉ p.connections := by
      intro p hp hcon
      obtain ⟨q, hq, hqpid, _⟩ := hS.2.2.1 p hp s.nextId hcon
      exact absurd (hqpid ▸ hReg.1 q hq) (lt_irrefl _)
    have hbfresh : b < s.nextId := hsubpid ▸ hReg.1 sub hsubm
    have hcfresh : second.pid < s.nextId := hReg.1 second hsecm
    have hRids : removalIds { create_link s
        ((sub.pos.1 + second.pos.1) / 2, (sub.pos.2 + second.pos.2) / 2) with
        to_remove := s.to_remove ++ [(b, none), (second.pid, none)] } =
        removalIds s ++ [b, second.pid] := by
      show (s.to_remove ++ [(b, none), (second.pid, none)]).map Prod.fst = _
      simp [removalIds]
    have hparts : ({ create_link s
        ((sub.pos.1 + second.pos.1) / 2, (sub.pos.2 + second.pos.2) / 2) with
        to_remove := s.to_remove ++ [(b, none), (second.pid, none)] } : SimState).particles =
        s.particles ++ [mkParticle s.nextId PType.LINK
          ((sub.pos.1 + second.pos.1) / 2, (sub.pos.2 + second.pos.2) / 2)] := rfl
    refine ⟨RegInv_create_link s _ hReg, ?_, ?_, ?_⟩
    · rw [hparts]
      exact SInv_append s.particles [] _ rfl hfreshL hS
    · intro r hr p hp hpid
      rw [hRids] at hr
      rw [hparts] at hp
      rcases List.mem_append.1 hp with hp | hp
      · rcases List.mem_append.1 hr with hr | hr
        · exact hP r hr p hp hpid
        · rcases List.mem_cons.1 hr with hr | hr
          · have : p = sub := eq_of_mem_pid_eq s.particles hReg.2.1 p sub hp hsubm
              (by rw [hpid, hr, hsubpid])
            rw [this, hsubty]
            simp
          · rcases List.mem_cons.1 hr with hr | hr
            · have : p = second := eq_of_mem_pid_eq s.particles hReg.2.1 p second hp hsecm
                (by rw [hpid, hr])
              rw [this, hsecty]
              simp
            · exact absurd hr (List.not_mem_nil r)
      · rw [List.mem_singleton.1 hp] at hpid
        have hpl : r = s.nextId := by
          rw [← hpid]
          rfl
        rcases List.mem_append.1 hr with hr | hr
        · exact absurd (hpl ▸ hF r hr) (lt_irrefl _)
        · rcases List.mem_cons.1 hr with hr | hr
          · omega
          · rcases List.mem_cons.1 hr with hr | hr
            · omega
            · exact absurd hr (List.not_mem_nil r)
    · intro r hr
      rw [hRids] at hr
      show r < s.nextId + 1
      rcases List.mem_append.1 hr with hr | hr
      · exact lt_trans (hF r hr) (Nat.lt_succ_self _)
      · rcases List.mem_cons.1 hr with hr | hr
        · omega
        · rcases List.mem_cons.1 hr with hr | hr
          · omega
          · exact absurd hr (List.not_mem_nil r)

theorem InvE_handle_link_detection (s : SimState) (a h : Nat) (hE : InvE s) :
    InvE (handle_link_detection s a h) := by
  obtain ⟨hReg, hS, hP, hF⟩ := hE
  rcases linkDet_cases s a h with he | ⟨p1, p2, h1, h2, hg, he⟩
  · rw [he]
    exact ⟨hReg, hS, hP, hF⟩
  · rw [he]
    have hm1 : p1 ∈ s.particles := List.mem_of_find?_eq_some h1
    have hm2 : p2 ∈ s.particles := List.mem_of_find?_eq_some h2
    have hty1 : p1.ptype = PType.LINK := by
      have := List.find?_some h1
      simp only [Bool.and_eq_true, beq_iff_eq] at this
      exact this.1
    have hty2 : p2.ptype = PType.LINK := by
      by_contra hnl
      have hmax := hReg.2.2.1 p2 hm2
      rw [if_neg hnl] at hmax
      have := hg.2.2.1
      omega
    refine ⟨RegInv_create_bond s p1 p2 hm1 hm2 hg.1 hg.2.1 hg.2.2.1 hReg,
      SInv_create_bond s p1 p2 hm1 hm2 hg.1 hg.2.2.2 hty1 hty2 hReg.2.1 hS, ?_, hF⟩
    refine PendingNotLink_transfer s (create_bond s p1.pid p2.pid) rfl ?_ hP
    intro p hp
    have : (create_bond s p1.pid p2.pid).particles =
        addConn (addConn s.particles p1.pid p2.pid) p2.pid p1.pid := rfl
    rw [this] at hp
    simp only [addConn, List.map_map] at hp
    obtain ⟨q, hq, rfl⟩ := List.mem_map.1 hp
    have hfields : ∀ (i j : Nat) (x : Particle),
        ((fun p : Particle =>
          if p.pid = i then { p with connections := p.connections ++ [j] } else p) x).pid = x.pid ∧
        ((fun p : Particle =>
          if p.pid = i then { p with connections := p.connections ++ [j] } else p) x).ptype =
            x.ptype := by
      intro i j x
      by_cases hx : x.pid = i <;> simp [hx]
    refine ⟨q, hq, ?_, ?_⟩
    · simp only [Function.comp_apply]
      rw [(hfields p2.pid p1.pid _).1, (hfields p1.pid p2.pid q).1]
    · simp only [Function.comp_apply]
      rw [(hfields p2.pid p1.pid _).2, (hfields p1.pid p2.pid q).2]

theorem InvE_applyEv (e : Ev) (s : SimState) (h : InvE s) : InvE (applyEv e s) := by
  cases e with
  | catSub roll b k => exact InvE_handle_catalyst_substrate s roll b k h
  | linkDet a b => exact InvE_handle_link_detection s a b h
  | motion f => exact InvE_set_positions f s h

theorem InvE_to_InvD (s : SimState) (h : InvE s) : InvD s := by
  obtain ⟨hReg, hS, hP, hF⟩ := h
  refine ⟨hReg, SInv_mono_R s.particles [] (removalIds s)
    (fun r hr => absurd hr (List.not_mem_nil r)) hS, ?_⟩
  intro r hr p hp hc
  obtain ⟨q, hq, hqpid, hqty⟩ := hS.2.2.1 p hp r hc
  exact absurd hqty (hP r hr q hq hqpid)

theorem erase_fold_eq_map (cids : List Nat) (hnd : cids.Nodup) (pid : Nat)
    (l : List Particle) :
    cids.foldl (fun l c => eraseFromConnections l c pid) l =
      l.map (fun q =>
        if q.pid ∈ cids then { q with connections := q.connections.erase pid } else q) := by
  induction cids generalizing l with
  | nil => simp
  | cons c cs ih =>
    simp only [List.nodup_cons] at hnd
    rw [List.foldl_cons, ih hnd.2]
    show (eraseFromConnections l c pid).map _ = _
    unfold eraseFromConnections
    rw [List.map_map]
    refine List.map_congr_left (fun q _ => ?_)
    simp only [Function.comp_apply]
    by_cases h1 : q.pid = c
    · have h2 : q.pid ∉ cs := h1 ▸ hnd.1
      simp [h1, h2, hnd.1]
    · by_cases h2 : q.pid ∈ cs <;> simp [h1, h2]

theorem InvD_disintegrate_step (rolls : Nat → Bool) (st : SimState) (pid : Nat)
    (h : InvD st) : InvD (disintegrate_step rolls st pid) := by
  obtain ⟨hReg, hS, hLp⟩ := h
  cases hf : st.particles.find? (fun p => p.pid == pid) with
  | none =>
    have he : disintegrate_step rolls st pid = st := by
      unfold disintegrate_step
      rw [hf]
    rw [he]
    exact ⟨hReg, hS, hLp⟩
  | some p =>
    have hppid : p.pid = pid := by simpa using List.find?_some hf
    have hpm : p ∈ st.particles := List.mem_of_find?_eq_some hf
    by_cases hLk : p.ptype = PType.LINK
    case neg =>
      have he : disintegrate_step rolls st pid = st := by
        unfold disintegrate_step
        rw [hf]
        simp [hLk]
      rw [he]
      exact ⟨hReg, hS, hLp⟩
    case pos =>
      have hgfld : ∀ q ∈ st.particles,
          ((fun q => if q.pid = pid then ({ p with age := p.age + 1 } : Particle) else q) q).pid
            = q.pid ∧
          ((fun q => if q.pid = pid then ({ p with age := p.age + 1 } : Particle) else q) q).ptype
            = q.ptype ∧
          ((fun q => if q.pid = pid then ({ p with age := p.age + 1 } : Particle) else q)
            q).connections = q.connections := by
        intro q hq
        by_cases hqp : q.pid = pid
        · have : q = p := eq_of_mem_pid_eq st.particles hReg.2.1 q p hq hpm
            (hqp.trans hppid.symm)
          subst this
          simp [hqp]
        · simp [hqp]
      set ps1 : List Particle :=
        st.particles.map (fun q => if q.pid = pid then { p with age := p.age + 1 } else q)
        with hps1
      have hS1 : SInv ps1 (removalIds st) := SInv_map _ _ _ hgfld hS
      have hLp1 : ∀ r ∈ removalIds st, ∀ q ∈ ps1, r ∈ q.connections →
          q.pid ∈ removalIds st := by
        intro r hr q hq hc
        obtain ⟨a, ha, rfl⟩ := List.mem_map.1 hq
        rw [(hgfld a ha).1]
        rw [(hgfld a ha).2.2] at hc
        exact hLp r hr a ha hc
      have hN1 : (ps1.map Particle.pid).Nodup := by
        rw [hps1, List.map_map]
        have he : List.map (Particle.pid ∘
            (fun q => if q.pid = pid then ({ p with age := p.age + 1 } : Particle) else q))
            st.particles = List.map Particle.pid st.particles :=
          List.map_congr_left (fun q hq => (hgfld q hq).1)
        rw [he]
        exact hReg.2.1
      have hp'mem : ({ p with age := p.age + 1 } : Particle) ∈ ps1 := by
        rw [hps1]
        refine List.mem_map.2 ⟨p, hpm, ?_⟩
        simp [hppid]
      by_cases htr : ({ p with age := p.age + 1 } : Particle).age > 2 * 500 ∧ rolls pid = true
      case neg =>
        have he : disintegrate_step rolls st pid = { st with particles := ps1 } := by
          unfold disintegrate_step
          rw [hf]
          simp only [if_pos hLk, if_neg htr]
        rw [he]
        exact ⟨by
          have := RegInv_disintegrate_step rolls st pid hReg
          rwa [(by
            unfold disintegrate_step
            rw [hf]
            simp only [if_pos hLk, if_neg htr] :
            disintegrate_step rolls st pid = { st with particles := ps1 })] at this,
          hS1, hLp1⟩
      case pos =>
        set cids : List Nat := p.connections with hcids
        have hcnd : cids.Nodup := hS.1 p hpm
        have he : disintegrate_step rolls st pid = { st with
            particles := cids.foldl (fun l cid => eraseFromConnections l cid pid) ps1,
            space := st.space ++ [st.nextId] ++ [st.nextId + 1],
            nextId := st.nextId + 1 + 1,
            to_remove := st.to_remove ++ [(pid, none)] } := by
          unfold disintegrate_step
          rw [hf]
          simp only [if_pos hLk, if_pos htr]
          rfl
        have hregD := RegInv_disintegrate_step rolls st pid hReg
        rw [he] at hregD ⊢
        have hfold : cids.foldl (fun l cid => eraseFromConnections l cid pid) ps1 =
            ps1.map (fun q =>
              if q.pid ∈ cids then { q with connections := q.connections.erase pid } else q) :=
          erase_fold_eq_map cids hcnd pid ps1
        have hRids : removalIds { st with
            particles := cids.foldl (fun l cid => eraseFromConnections l cid pid) ps1,
            space := st.space ++ [st.nextId] ++ [st.nextId + 1],
            nextId := st.nextId + 1 + 1,
            to_remove := st.to_remove ++ [(pid, none)] } = removalIds st ++ [pid] := by
          show (st.to_remove ++ [(pid, none)]).map Prod.fst = _
          simp [removalIds]
        refine ⟨hregD, ?_, ?_⟩
        · show SInv (cids.foldl (fun l cid => eraseFromConnections l cid pid) ps1) _
          rw [hRids, hfold]
          obtain ⟨s1, s2, s3, s4⟩ := hS1
          have hhf : ∀ q : Particle, ((fun q : Particle =>
              if q.pid ∈ cids then { q with connections := q.connections.erase pid } else q)
                q).pid = q.pid ∧
              ((fun q : Particle =>
              if q.pid ∈ cids then { q with connections := q.connections.erase pid } else q)
                q).ptype = q.ptype := by
            intro q
            by_cases hq : q.pid ∈ cids <;> simp [hq]
          have hhsub : ∀ q : Particle, ((fun q : Particle =>
              if q.pid ∈ cids then { q with connections := q.connections.erase pid } else q)
                q).connections ⊆ q.connections := by
            intro q
            by_cases hq : q.pid ∈ cids <;> simp [hq]
            exact fun a ha => (List.erase_sublist pid q.connections).subset ha
          refine ⟨?_, ?_, ?_, ?_⟩
          · intro q hq
            obtain ⟨a, ha, rfl⟩ := List.mem_map.1 hq
            by_cases hap : a.pid ∈ cids
            · simp only [if_pos hap]
              exact (s1 a ha).erase pid
            · simp only [if_neg hap]
              exact s1 a ha
          · intro q hq
            obtain ⟨a, ha, rfl⟩ := List.mem_map.1 hq
            intro hcon
            exact s2 a ha ((hhf a).1 ▸ hhsub a hcon)
          · intro q hq c hc
            obtain ⟨a, ha, rfl⟩ := List.mem_map.1 hq
            obtain ⟨w, hw, hwp, hwt⟩ := s3 a ha c (hhsub a hc)
            exact ⟨_, List.mem_map_of_mem _ hw, by rw [(hhf w).1]; exact hwp,
              by rw [(hhf w).2]; exact hwt⟩
          · intro A hA B hB hm
            obtain ⟨a, ha, rfl⟩ := List.mem_map.1 hA
            obtain ⟨b, hb, rfl⟩ := List.mem_map.1 hB
            rw [(hhf b).1] at hm
            rw [(hhf a).1]
            have hm' : b.pid ∈ a.connections := hhsub a hm
            rcases s4 a ha b hb hm' with hsym | hpend
            · by_cases hbp : b.pid ∈ cids
              · simp only [if_pos hbp]
                by_cases hapid : a.pid = pid
                · exact Or.inr (List.mem_append_right _ (by simp [hapid]))
                · exact Or.inl ((List.mem_erase_of_ne hapid).2 hsym)
              · simp only [if_neg hbp]
                exact Or.inl hsym
            · exact Or.inr (List.mem_append_left _ hpend)
        · show ListersPending { st with
            particles := cids.foldl (fun l cid => eraseFromConnections l cid pid) ps1,
            space := st.space ++ [st.nextId] ++ [st.nextId + 1],
            nextId := st.nextId + 1 + 1,
            to_remove := st.to_remove ++ [(pid, none)] }
          intro r hr A hA hc
          rw [hRids] at hr ⊢
          rw [show ({ st with
            particles := cids.foldl (fun l cid => eraseFromConnections l cid pid) ps1,
            space := st.space ++ [st.nextId] ++ [st.nextId + 1],
            nextId := st.nextId + 1 + 1,
            to_remove := st.to_remove ++ [(pid, none)] } : SimState).particles =
              cids.foldl (fun l cid => eraseFromConnections l cid pid) ps1 from rfl,
            hfold] at hA
          obtain ⟨a, ha, rfl⟩ := List.mem_map.1 hA
          have hhf : ∀ q : Particle, ((fun q : Particle =>
              if q.pid ∈ cids then { q with connections := q.connections.erase pid } else q)
                q).pid = q.pid := by
            intro q
            by_cases hq : q.pid ∈ cids <;> simp [hq]
          rw [hhf a]
          rcases List.mem_append.1 hr with hr | hr
          · have hsub : r ∈ a.connections := by
              by_cases hap : a.pid ∈ cids
              · simp only [if_pos hap] at hc
                exact (List.erase_sublist pid a.connections).subset hc
              · simpa only [if_neg hap] using hc
            exact List.mem_append_left _ (hLp1 r hr a ha hsub)
          · rw [List.mem_singleton.1 hr] at hc
            by_cases hap : a.pid ∈ cids
            · simp only [if_pos hap] at hc
              have := ((hS1.1 a ha).mem_erase_iff).1 hc
              exact absurd rfl this.1
            · simp only [if_neg hap] at hc
              rcases hS1.2.2.2 a ha _ hp'mem (by
                  show ({ p with age := p.age + 1 } : Particle).pid ∈ a.connections
                  show p.pid ∈ a.connections
                  rw [hppid]
                  exact hc) with hsym | hpend
              · exact absurd (by
                  have : a.pid ∈ ({ p with age := p.age + 1 } : Particle).connections := hsym
                  exact this) hap
              · exact List.mem_append_left _ hpend

theorem InvD_handle_disintegration (rolls : Nat → Bool) (s : SimState) (h : InvD s) :
    InvD (handle_disintegration rolls s) :=
  foldl_preserve InvD (disintegrate_step rolls)
    (fun st a hh => InvD_disintegrate_step rolls st a hh) _ s h

theorem InvD_set_positions (f : Nat → ℚ × ℚ) (s : SimState) (h : InvD s) :
    InvD (set_positions f s) := by
  obtain ⟨hReg, hS, hLp⟩ := h
  refine ⟨RegInv_set_positions f s hReg, ?_, ?_⟩
  · exact SInv_map s.particles _ _ (fun p _ => ⟨rfl, rfl, rfl⟩) hS
  · intro r hr q hq hc
    obtain ⟨a, ha, rfl⟩ := List.mem_map.1 hq
    exact hLp r hr a ha hc

theorem InvD_flush (s : SimState) (h : InvD s) : InvO (flush_mutations s) := by
  obtain ⟨hReg, hS, hLp⟩ := h
  have hN : NodupPids s := hReg.2.1
  have hparts := flush_mutations_particles s hN
  have hmemf : ∀ p ∈ (flush_mutations s).particles,
      p ∈ s.particles ∧ p.pid ∉ removalIds s := by
    intro p hp
    rw [hparts] at hp
    have := List.mem_filter.1 hp
    exact ⟨this.1, by simpa using this.2⟩
  refine ⟨⟨RegInv_flush_mutations s hReg, ⟨?_, ?_, ?_, ?_⟩, ?_, ?_⟩, flush_mutations_to_remove s⟩
  · intro p hp
    exact hS.1 p (hmemf p hp).1
  · intro p hp
    exact hS.2.1 p (hmemf p hp).1
  · intro p hp c hc
    obtain ⟨hpm, hpr⟩ := hmemf p hp
    obtain ⟨w, hw, hwp, hwt⟩ := hS.2.2.1 p hpm c hc
    have hcr : c ∉ removalIds s := by
      intro hcr
      exact hpr (hLp c hcr p hpm hc)
    refine ⟨w, ?_, hwp, hwt⟩
    rw [hparts]
    refine List.mem_filter.2 ⟨hw, by simpa using hwp ▸ hcr⟩
  · intro p hp q hq hm
    obtain ⟨hpm, hpr⟩ := hmemf p hp
    obtain ⟨hqm, _⟩ := hmemf q hq
    rcases hS.2.2.2 p hpm q hqm hm with hsym | hpend
    · exact Or.inl hsym
    · exact absurd hpend hpr
  · intro r hr
    rw [show removalIds (flush_mutations s) = [] from by
      rw [removalIds, flush_mutations_to_remove]
      rfl] at hr
    exact absurd hr (List.not_mem_nil r)
  · intro r hr
    rw [show removalIds (flush_mutations s) = [] from by
      rw [removalIds, flush_mutations_to_remove]
      rfl] at hr
    exact absurd hr (List.not_mem_nil r)

theorem setup_conns_empty (poss : Nat → ℚ × ℚ) :
    ∀ p ∈ (setup_simulation poss).particles, p.connections = [] := by
  apply foldl_preserve (fun st => ∀ p ∈ st.particles, p.connections = [])
  · intro st a hst p hp
    rcases List.mem_append.1 hp with hp | hp
    · exact hst p hp
    · rw [List.mem_singleton.1 hp]
      rfl
  · intro p hp
    rw [List.mem_singleton.1 hp]
    rfl

theorem setup_to_remove_empty (poss : Nat → ℚ × ℚ) :
    (setup_simulation poss).to_remove = [] := by
  apply foldl_preserve (fun st => st.to_remove = [])
  · intro st a h
    exact h
  · rfl

theorem InvO_setup (poss : Nat → ℚ × ℚ) : InvO (setup_simulation poss) := by
  have hc := setup_conns_empty poss
  have hr := setup_to_remove_empty poss
  have hrid : removalIds (setup_simulation poss) = [] := by
    rw [removalIds, hr]
    rfl
  refine ⟨⟨RegInv_setup_simulation poss, ⟨?_, ?_, ?_, ?_⟩, ?_, ?_⟩, hr⟩
  · intro p hp
    rw [hc p hp]
    exact List.nodup_nil
  · intro p hp
    rw [hc p hp]
    exact List.not_mem_nil _
  · intro p hp c hcc
    rw [hc p hp] at hcc
    exact absurd hcc (List.not_mem_nil c)
  · intro p hp q hq hm
    rw [hc p hp] at hm
    exact absurd hm (List.not_mem_nil _)
  · intro r hrr
    rw [hrid] at hrr
    exact absurd hrr (List.not_mem_nil r)
  · intro r hrr
    rw [hrid] at hrr
    exact absurd hrr (List.not_mem_nil r)

theorem InvO_runTick (td : TickData) (s : SimState) (h : InvO s) : InvO (runTick td s) := by
  obtain ⟨hE, _⟩ := h
  have hE1 : InvE (td.evs.foldl (fun st e => applyEv e st) s) :=
    foldl_preserve InvE (fun st e => applyEv e st)
      (fun st e hh => InvE_applyEv e st hh) td.evs s hE
  have hD2 : InvD (handle_disintegration td.rolls
      (td.evs.foldl (fun st e => applyEv e st) s)) :=
    InvD_handle_disintegration td.rolls _ (InvE_to_InvD _ hE1)
  have hD3 : InvD (set_positions td.boundary (handle_disintegration td.rolls
      (td.evs.foldl (fun st e => applyEv e st) s))) :=
    InvD_set_positions td.boundary _ hD2
  exact InvD_flush _ hD3

/-- C10: at the end of every tick, after the deferred-mutation flush, the
connections relation restricted to the particles still in the registry is
symmetric: for all live particles p and q, q is among p's connections if
and only if p is among q's connections. -/
theorem C10_connections_symmetric (poss : Nat → ℚ × ℚ) (tds : List TickData) :
    ∀ p ∈ (runTicks tds (setup_simulation poss)).particles,
      ∀ q ∈ (runTicks tds (setup_simulation poss)).particles,
        (q.pid ∈ p.connections ↔ p.pid ∈ q.connections) := by
  have hO : InvO (runTicks tds (setup_simulation poss)) :=
    foldl_preserve InvO (fun st td => runTick td st)
      (fun st td h => InvO_runTick td st h) tds _ (InvO_setup poss)
  intro p hp q hq
  have hSym := hO.1.2.1.2.2.2
  constructor
  · intro hm
    rcases hSym p hp q hq hm with h | h
    · exact h
    · exact absurd h (List.not_mem_nil _)
  · intro hm
    rcases hSym q hq p hp hm with h | h
    · exact h
    · exact absurd h (List.not_mem_nil _)

theorem runTicks_nil (s : SimState) : runTicks [] s = s := rfl

theorem substrate_mem_setup (poss : Nat → ℚ × ℚ) :
    mkParticle 1 PType.SUBSTRATE (poss 1) ∈ (setup_simulation poss).particles := by
  unfold setup_simulation
  rw [show (List.range 300) = 0 :: ((List.range 299).map Nat.succ) from by
    rw [← List.range_succ_eq_map]]
  rw [List.foldl_cons]
  apply mem_foldl_append
  · intro st a p h
    exact List.mem_append_left _ h
  · exact List.mem_append_right _ (List.mem_singleton.2 rfl)

/-- Witness for C10 at the initial state (zero ticks), instantiated at the
first substrate and the catalyst. -/
theorem C10_witness :
    ((mkParticle 0 PType.CATALYST (400, 400)).pid ∈
        (mkParticle 1 PType.SUBSTRATE (0, 0)).connections ↔
      (mkParticle 1 PType.SUBSTRATE (0, 0)).pid ∈
        (mkParticle 0 PType.CATALYST (400, 400)).connections) := by
  have h := C10_connections_symmetric (fun _ => (0, 0)) []
  rw [runTicks_nil] at h
  exact h _ (substrate_mem_setup (fun _ => (0, 0))) _ (catalyst_mem_setup (fun _ => (0, 0)))

/-! Claim C1: what a disintegration firing actually does to the registry. -/

/-- Concrete state for C1: link 0 (age 1000, so the next tick ages it past
1000) bonded to links 1 and 2; two springs in the bonds list. -/
def stateAgedLink : SimState :=
  { particles :=
      [{ pid := 0, ptype := PType.LINK, pos := (100, 100), connections := [1, 2],
         max_connections := 2, age := 1000 },
       { pid := 1, ptype := PType.LINK, pos := (120, 100), connections := [0],
         max_connections := 2, age := 5 },
       { pid := 2, ptype := PType.LINK, pos := (80, 100), connections := [0],
         max_connections := 2, age := 5 }],
    bonds := [(1, 0), (2, 0)], to_remove := [], space := [0, 1, 2], nextId := 3 }

/-- C1 fails on the code: a successful disintegration roll on link 0
followed by the flush leaves the registry with 2 particles instead of 4
(total count decreases by 1 instead of increasing by 1): the two SUBSTRATE
particles are constructed and their bodies added to the physics space (ids
3 and 4), but they are never appended to the registry, so the registry
holds 0 substrates; and the bonds list still holds both springs of the
removed link, because the enqueued mutation carries no bond. -/
theorem C1_disintegration_registry_eval :
    (flush_mutations (handle_disintegration (fun _ => true) stateAgedLink)).particles.length = 2 ∧
    stateAgedLink.particles.length = 3 ∧
    (update_stats (flush_mutations
      (handle_disintegration (fun _ => true) stateAgedLink))).substrate = 0 ∧
    (flush_mutations (handle_disintegration (fun _ => true) stateAgedLink)).bonds =
      [(1, 0), (2, 0)] ∧
    (flush_mutations (handle_disintegration (fun _ => true) stateAgedLink)).space =
      [1, 2, 3, 4] := by
  norm_num [handle_disintegration, disintegrate_step, flush_mutations, flush_one,
    remove_particle, update_stats, eraseFromConnections, spawn, mkParticle,
    List.find?_cons, List.filter_cons, stateAgedLink, List.foldl, List.eraseP, List.erase,
    show (PType.LINK = PType.SUBSTRATE) = False from by simp]

/-! Real-valued geometry model of `apply_brownian_motion` and
`handle_boundary_collision`.  Positions, velocities and forces are vectors
over ℝ (the idealisation of the source's floating point). -/

noncomputable section

/-- Geometry-model particle: id, kind, position, velocity, connections. -/
structure GParticle where
  pid : Nat
  ptype : PType
  pos : ℝ × ℝ
  vel : ℝ × ℝ
  connections : List Nat

/-- Radius by kind, as assigned in `Particle.__init__`. -/
def gradius (p : GParticle) : ℝ := if p.ptype = PType.CATALYST then 12 else 8

/-- Membrane centre `(width/2, height/2)`. -/
def gcenter : ℝ × ℝ := (400, 400)

/-- Componentwise vector subtraction. -/
def vsub (a b : ℝ × ℝ) : ℝ × ℝ := (a.1 - b.1, a.2 - b.2)

/-- Componentwise vector addition. -/
def vadd (a b : ℝ × ℝ) : ℝ × ℝ := (a.1 + b.1, a.2 + b.2)

/-- Scalar multiple of a vector. -/
def vscale (c : ℝ) (v : ℝ × ℝ) : ℝ × ℝ := (c * v.1, c * v.2)

/-- Vector negation (`-particle.body.velocity`). -/
def vneg (v : ℝ × ℝ) : ℝ × ℝ := (-v.1, -v.2)

/-- Euclidean length of a vector. -/
def vlen (v : ℝ × ℝ) : ℝ := Real.sqrt (v.1 ^ 2 + v.2 ^ 2)

/-- pymunk `Vec2d.normalized`: the unit vector in the same direction, and
the zero vector when the length is zero. -/
def normalizedV (v : ℝ × ℝ) : ℝ × ℝ := if vlen v = 0 then (0, 0) else vscale (1 / vlen v) v

/-- pymunk `a.get_distance(b)`. -/
def get_distance (a b : ℝ × ℝ) : ℝ := vlen (vsub a b)

/-- Boundary radius in `handle_boundary_collision`. -/
def boundary_radius : ℝ := 200

/-- Confinement radius in `apply_brownian_motion`. -/
def confinement_radius : ℝ := 200

/-- Attraction strength in `apply_brownian_motion`. -/
def attraction_strength : ℝ := 0.5

/-- Body of the `handle_boundary_collision` loop for one particle (the
catalyst exclusion in the source is commented out, so every particle is
processed): when the distance from the centre reaches
`boundary_radius - radius`, the position is clamped to exactly that
distance along the same radial direction and the velocity is negated. -/
def bounceParticle (p : GParticle) : GParticle :=
  if get_distance gcenter p.pos ≥ boundary_radius - gradius p then
    { p with
      pos := vadd gcenter (vscale (boundary_radius - gradius p)
        (normalizedV (vsub p.pos gcenter))),
      vel := vneg p.vel }
  else p

/-- Source `handle_boundary_collision` over the whole registry. -/
def handle_boundary_collision (ps : List GParticle) : List GParticle :=
  ps.map bounceParticle

/-- Force submissions of one `apply_brownian_motion` iteration: nothing for
a CATALYST; otherwise the Brownian sample `gauss p.pid` applied at the
particle's centre, plus, when the distance from the centre exceeds the
confinement radius, the confinement force
`(center - position).normalized() * (distance - confinement_radius) * attraction_strength`. -/
def brownian_cmds (gauss : Nat → ℝ × ℝ) (p : GParticle) : List (Nat × (ℝ × ℝ)) :=
  if p.ptype ≠ PType.CATALYST then
    [(p.pid, gauss p.pid)] ++
      (if get_distance gcenter p.pos > confinement_radius then
        [(p.pid, vscale attraction_strength
          (vscale (get_distance gcenter p.pos - confinement_radius)
            (normalizedV (vsub gcenter p.pos))))]
      else [])
  else []

/-- Source `apply_brownian_motion`: reads the registry and submits forces
to the physics engine; it performs no mutation of the registry, positions
or connections, which the model renders by returning the registry
unchanged alongside the emitted force commands. -/
def apply_brownian_motion (ps : List GParticle) (gauss : Nat → ℝ × ℝ) :
    List GParticle × List (Nat × (ℝ × ℝ)) :=
  (ps, (ps.map (brownian_cmds gauss)).join)

theorem vlen_nonneg (v : ℝ × ℝ) : 0 ≤ vlen v := Real.sqrt_nonneg _

theorem vlen_scale (c : ℝ) (v : ℝ × ℝ) : vlen (vscale c v) = |c| * vlen v := by
  unfold vlen vscale
  rw [show (c * v.1) ^ 2 + (c * v.2) ^ 2 = c ^ 2 * (v.1 ^ 2 + v.2 ^ 2) by ring]
  rw [Real.sqrt_mul (sq_nonneg c), Real.sqrt_sq_eq_abs]

theorem vlen_vsub_symm (a b : ℝ × ℝ) : vlen (vsub a b) = vlen (vsub b a) := by
  unfold vlen vsub
  rw [show (a.1 - b.1) ^ 2 + (a.2 - b.2) ^ 2 = (b.1 - a.1) ^ 2 + (b.2 - a.2) ^ 2 by ring]

theorem vlen_normalized (v : ℝ × ℝ) (h : vlen v ≠ 0) : vlen (normalizedV v) = 1 := by
  unfold normalizedV
  rw [if_neg h, vlen_scale]
  have hpos : 0 < vlen v := lt_of_le_of_ne (vlen_nonneg v) (Ne.symm h)
  rw [abs_of_pos (by positivity)]
  field_simp

theorem vsub_vadd_cancel (a b : ℝ × ℝ) : vsub (vadd a b) a = b := by
  unfold vsub vadd
  simp

theorem vscale_vscale (a b : ℝ) (v : ℝ × ℝ) : vscale a (vscale b v) = vscale (a * b) v := by
  unfold vscale
  simp only [Prod.mk.injEq]
  constructor <;> ring

theorem gradius_bounds (p : GParticle) : 0 < gradius p ∧ gradius p < 200 := by
  unfold gradius
  split <;> norm_num

/-- C6: for every particle whose distance from the membrane centre is at
least `boundary_radius - radius`, the boundary pass negates its velocity
and places it at exactly distance `boundary_radius - radius` from the
centre, along the same radial direction; consequently every particle is
within distance 200 of the centre after `handle_boundary_collision`. -/
theorem C6_boundary_containment (ps : List GParticle) :
    (∀ p ∈ ps, get_distance gcenter p.pos ≥ boundary_radius - gradius p →
      (bounceParticle p).vel = vneg p.vel ∧
      get_distance gcenter (bounceParticle p).pos = boundary_radius - gradius p ∧
      (∃ t : ℝ, 0 ≤ t ∧
        vsub (bounceParticle p).pos gcenter = vscale t (vsub p.pos gcenter))) ∧
    (∀ q ∈ handle_boundary_collision ps, get_distance gcenter q.pos ≤ boundary_radius) := by
  have hbounce : ∀ p : GParticle, get_distance gcenter p.pos ≥ boundary_radius - gradius p →
      (bounceParticle p).vel = vneg p.vel ∧
      get_distance gcenter (bounceParticle p).pos = boundary_radius - gradius p ∧
      (∃ t : ℝ, 0 ≤ t ∧
        vsub (bounceParticle p).pos gcenter = vscale t (vsub p.pos gcenter)) := by
    intro p hd
    obtain ⟨hr0, hr200⟩ := gradius_bounds p
    have hbr : boundary_radius - gradius p > 0 := by
      unfold boundary_radius
      linarith
    have hdpos : 0 < get_distance gcenter p.pos := lt_of_lt_of_le hbr hd
    have hlen : vlen (vsub p.pos gcenter) = get_distance gcenter p.pos :=
      vlen_vsub_symm p.pos gcenter
    have hlen0 : vlen (vsub p.pos gcenter) ≠ 0 := by
      rw [hlen]
      exact ne_of_gt hdpos
    have hb : bounceParticle p = { p with
        pos := vadd gcenter (vscale (boundary_radius - gradius p)
          (normalizedV (vsub p.pos gcenter))),
        vel := vneg p.vel } := by
      unfold bounceParticle
      rw [if_pos hd]
    refine ⟨by rw [hb], ?_, ?_⟩
    · rw [hb]
      show get_distance gcenter (vadd gcenter (vscale (boundary_radius - gradius p)
        (normalizedV (vsub p.pos gcenter)))) = _
      rw [get_distance, vlen_vsub_symm, vsub_vadd_cancel, vlen_scale,
        vlen_normalized _ hlen0, abs_of_pos hbr]
      ring
    · refine ⟨(boundary_radius - gradius p) * (1 / vlen (vsub p.pos gcenter)), ?_, ?_⟩
      · have : 0 < vlen (vsub p.pos gcenter) := by
          rw [hlen]
          exact hdpos
        positivity
      · rw [hb]
        show vsub (vadd gcenter (vscale (boundary_radius - gradius p)
          (normalizedV (vsub p.pos gcenter)))) gcenter = _
        rw [vsub_vadd_cancel, normalizedV, if_neg hlen0, vscale_vscale]
  refine ⟨fun p _ hd => hbounce p hd, ?_⟩
  intro q hq
  obtain ⟨p, _, rfl⟩ := List.mem_map.1 hq
  by_cases hd : get_distance gcenter p.pos ≥ boundary_radius - gradius p
  · have h2 := (hbounce p hd).2.1
    rw [h2]
    have := (gradius_bounds p).1
    linarith
  · have hb : bounceParticle p = p := by
      unfold bounceParticle
      rw [if_neg hd]
    rw [hb]
    push_neg at hd
    have := (gradius_bounds p).1
    linarith

/-- C8: the stochastic force field reads the registry and only emits force
commands: the registry (positions, kinds, connections) is returned
unchanged; a CATALYST receives no force; a non-CATALYST within the
confinement radius receives exactly the Brownian sample; a non-CATALYST
beyond the confinement radius additionally receives a confinement force
directed toward the centre with magnitude
`(distance - confinement_radius) * attraction_strength`; and every emitted
command targets a non-CATALYST particle. -/
theorem C8_brownian_frame (ps : List GParticle) (gauss : Nat → ℝ × ℝ) :
    (apply_brownian_motion ps gauss).1 = ps ∧
    (∀ p ∈ ps, p.ptype = PType.CATALYST → brownian_cmds gauss p = []) ∧
    (∀ p ∈ ps, p.ptype ≠ PType.CATALYST →
      get_distance gcenter p.pos ≤ confinement_radius →
      brownian_cmds gauss p = [(p.pid, gauss p.pid)]) ∧
    (∀ p ∈ ps, p.ptype ≠ PType.CATALYST →
      confinement_radius < get_distance gcenter p.pos →
      brownian_cmds gauss p = [(p.pid, gauss p.pid),
        (p.pid, vscale attraction_strength
          (vscale (get_distance gcenter p.pos - confinement_radius)
            (normalizedV (vsub gcenter p.pos))))] ∧
      vlen (vscale attraction_strength
          (vscale (get_distance gcenter p.pos - confinement_radius)
            (normalizedV (vsub gcenter p.pos)))) =
        (get_distance gcenter p.pos - confinement_radius) * attraction_strength ∧
      (∃ t : ℝ, 0 ≤ t ∧ vscale attraction_strength
          (vscale (get_distance gcenter p.pos - confinement_radius)
            (normalizedV (vsub gcenter p.pos))) = vscale t (vsub gcenter p.pos))) ∧
    (∀ c ∈ (apply_brownian_motion ps gauss).2, ∃ p ∈ ps, c.1 = p.pid ∧
      p.ptype ≠ PType.CATALYST) := by
  refine ⟨rfl, ?_, ?_, ?_, ?_⟩
  · intro p _ hty
    unfold brownian_cmds
    rw [if_neg (by simp [hty])]
  · intro p _ hty hd
    unfold brownian_cmds
    rw [if_pos hty, if_neg (by simpa using hd)]
    simp
  · intro p _ hty hd
    have hdpos : 0 < get_distance gcenter p.pos := by
      have : (0 : ℝ) < confinement_radius := by
        unfold confinement_radius
        norm_num
      linarith
    have hlen0 : vlen (vsub gcenter p.pos) ≠ 0 := ne_of_gt hdpos
    have hsd : 0 < get_distance gcenter p.pos - confinement_radius := by linarith
    have hstr : (0 : ℝ) < attraction_strength := by
      unfold attraction_strength
      norm_num
    refine ⟨?_, ?_, ?_⟩
    · unfold brownian_cmds
      rw [if_pos hty, if_pos hd]
      rfl
    · rw [vlen_scale, vlen_scale, vlen_normalized _ hlen0, abs_of_pos hstr, abs_of_pos hsd]
      ring
    · refine ⟨attraction_strength *
        ((get_distance gcenter p.pos - confinement_radius) * (1 / vlen (vsub gcenter p.pos))),
        ?_, ?_⟩
      · have : 0 < vlen (vsub gcenter p.pos) :=
          lt_of_le_of_ne (vlen_nonneg _) (Ne.symm hlen0)
        positivity
      · rw [normalizedV, if_neg hlen0, vscale_vscale, vscale_vscale, mul_assoc]
  · intro c hc
    obtain ⟨l, hl, hcl⟩ := List.mem_join.1 hc
    obtain ⟨p, hp, rfl⟩ := List.mem_map.1 hl
    by_cases hty : p.ptype = PType.CATALYST
    · rw [show brownian_cmds gauss p = [] from by
        unfold brownian_cmds
        rw [if_neg (by simp [hty])]] at hcl
      exact absurd hcl (List.not_mem_nil c)
    · refine ⟨p, hp, ?_, hty⟩
      unfold brownian_cmds at hcl
      rw [if_pos hty] at hcl
      rcases List.mem_append.1 hcl with hcl | hcl
      · rw [List.mem_singleton.1 hcl]
      · by_cases hd : get_distance gcenter p.pos > confinement_radius
        · rw [if_pos hd] at hcl
          rw [List.mem_singleton.1 hcl]
        · rw [if_neg hd] at hcl
          exact absurd hcl (List.not_mem_nil c)

theorem dist_650_400 : get_distance gcenter ((650 : ℝ), (400 : ℝ)) = 250 := by
  unfold get_distance vlen vsub gcenter
  rw [show ((400 : ℝ) - 650) ^ 2 + ((400 : ℝ) - 400) ^ 2 = 250 ^ 2 by norm_num]
  exact Real.sqrt_sq (by norm_num)

/-- Witness for C6: a substrate at distance 250 from the centre is clamped
to distance 192 and its velocity is negated. -/
theorem C6_witness :
    get_distance gcenter
        (bounceParticle ⟨1, PType.SUBSTRATE, (650, 400), (3, -4), []⟩).pos =
      boundary_radius - gradius ⟨1, PType.SUBSTRATE, (650, 400), (3, -4), []⟩ ∧
    (bounceParticle ⟨1, PType.SUBSTRATE, (650, 400), (3, -4), []⟩).vel = vneg (3, -4) := by
  have h := (C6_boundary_containment [⟨1, PType.SUBSTRATE, (650, 400), (3, -4), []⟩]).1
    ⟨1, PType.SUBSTRATE, (650, 400), (3, -4), []⟩ (List.mem_singleton.2 rfl) ?_
  · exact ⟨h.2.1, h.1⟩
  · show get_distance gcenter ((650 : ℝ), (400 : ℝ)) ≥ _
    rw [dist_650_400]
    unfold boundary_radius gradius
    norm_num [show (PType.SUBSTRATE = PType.CATALYST) = False from by simp]

/-- Witness for C8: the catalyst receives no force, and a substrate at
distance 250 receives a confinement force of magnitude 25. -/
theorem C8_witness :
    brownian_cmds (fun _ => (0, 0)) ⟨0, PType.CATALYST, (400, 400), (0, 0), []⟩ = [] ∧
    vlen (vscale attraction_strength
        (vscale (get_distance gcenter ((650 : ℝ), (400 : ℝ)) - confinement_radius)
          (normalizedV (vsub gcenter ((650 : ℝ), (400 : ℝ)))))) =
      (get_distance gcenter ((650 : ℝ), (400 : ℝ)) - confinement_radius) *
        attraction_strength := by
  have h := C8_brownian_frame [⟨0, PType.CATALYST, (400, 400), (0, 0), []⟩,
    ⟨1, PType.SUBSTRATE, (650, 400), (0, 0), []⟩] (fun _ => (0, 0))
  refine ⟨h.2.1 _ (by simp) rfl, ?_⟩
  have h2 := h.2.2.2.1 ⟨1, PType.SUBSTRATE, (650, 400), (0, 0), []⟩ (by simp)
    (by simp) ?_
  · exact h2.2.1
  · show confinement_radius < get_distance gcenter ((650 : ℝ), (400 : ℝ))
    rw [dist_650_400]
    unfold confinement_radius
    norm_num

end

end Autopoiesis
